import Mathlib

/-! # pblcache: the log-structured block cache (`cache/log.go`)

A shallow embedding of `cache/log.go` and a verification development over it.

* Machine integers (`uint64`) are natural numbers; every product, sum and
  index-to-offset conversion that the source computes in `uint64` is reduced
  modulo `2^64` explicitly.
* `godbc.Check`, `godbc.Require`, `godbc.Ensure` and the Go runtime panics
  are faults: a step that trips one returns `Outcome.fault`.
* The goroutines of the log (the dispatcher `server`/`put`/`get`, the
  `writer`, the `reader` and the `logread` workers) become the actions of a
  step function.  One action is one atomic piece of one goroutine: a whole
  iteration of the writer or logread loop, a whole `get`, one evaluation of
  the loop condition of `put` (followed either by the send half of `sync`
  or by the rest of `put`), the receive half of `sync`, the part of an
  iteration of the reader loop that ends with the release of the lock of
  the buffer (the receive from `chreader`, the move of the cursor, the new
  offset, the pre-read), and the send on `chavailable` that ends the
  iteration.  Between these two the reader holds a buffer that stands on no
  channel.  A channel operation that would block makes the action
  `Outcome.blocked`.
  An execution of the log is a list of actions run from the state `NewLog`
  returns; every interleaving of the goroutines is such a list.
* Channels are FIFO lists of segment-buffer indices (the source queues
  pointers into `log.segments`); the log file is the list of its bytes.
* Writes to the log file are taken to succeed in full; a read returns the
  bytes the file holds from the offset on, fewer than asked past its end,
  and then reports an error (`io.EOF`).
  The conversions of offsets to `int64` are taken to be exact.
* Statistics (`logstats`), wall-clock timing and shutdown are left out.
-/

namespace Pblcache

/-- The fatal failures of `log.go`: a Go runtime panic on a division by zero
and one fault for each `godbc` check. -/
inductive Fault where
  | divideByZero
  | checkNumSegments
  | checkOpen
  | ensureSize
  | requireBlockNum
  | checkPutWrite
  | checkRamRead
  | checkSegmentRead
  | checkBlockRead
  | checkBlockReadErr
  deriving DecidableEq

/-- The outcome of a piece of code: a value, a fatal failure, or a channel
operation that cannot proceed in the present state. -/
inductive Outcome (α : Type) where
  | ok (a : α)
  | fault (f : Fault)
  | blocked
  deriving DecidableEq

/-- Two to the sixty-fourth: the modulus of `uint64` arithmetic. -/
def U64 : Nat := 2 ^ 64

/-- The constant `fsegmentbuffers` of `log.go`. -/
def fsegmentbuffers : Nat := 32

/-- The capacity of `Msgchan` and of `logreaders` in `NewLog`. -/
def freaders : Nat := 32

/-! ## Byte buffers, the log file, the segment buffer -/

/-- Go's builtin `copy(dst, src)`: the first `min (len dst) (len src)` bytes
of `dst` are replaced by those of `src`. -/
def copy (dst src : List Nat) : List Nat :=
  src.take dst.length ++ dst.drop src.length

/-- The method `ReadAt(p, off)` of a byte region (`bufferio.BufferIO.ReadAt`
on a segment buffer, `os.File.ReadAt` on the log file): fills `p` from the
bytes at `off` and returns the number of bytes read with the filled `p`. -/
def ReadAt (region p : List Nat) (off : Nat) : Nat × List Nat :=
  (min p.length (region.length - off), copy p (region.drop off))

/-- The method `bufferio.BufferIO.WriteAt(p, off)` on a segment buffer of
fixed length: copies `p` over the bytes at `off`, returns the count. -/
def WriteAt (region p : List Nat) (off : Nat) : Nat × List Nat :=
  (min p.length (region.length - off),
   region.take off ++ copy (region.drop off) p)

/-- The method `os.File.WriteAt(p, off)` on the log file: the file grows as
needed, a gap before `off` reads as zero bytes, all of `p` is written. -/
def fileWriteAt (fp p : List Nat) (off : Nat) : List Nat :=
  let padded := fp ++ List.replicate (off - fp.length) 0
  padded.take off ++ p ++ padded.drop (off + p.length)

structure IoSegment where
  segmentbuf : List Nat
  offset : Nat
  written : Bool
  deriving DecidableEq

/-! ## Messages -/

inductive MsgType where
  | MsgPut
  | MsgGet
  deriving DecidableEq

/-- A `message.Message` carrying an `IoPkt`: its type, block number and
buffer. -/
structure Message where
  kind : MsgType
  BlockNum : Nat
  Buffer : List Nat
  deriving DecidableEq

/-! ## The buffer cache -/

structure CacheEntry where
  key : Nat
  data : List Nat
  referenced : Bool
  deriving DecidableEq

/-- Modelled from the spec: the buffer cache is the package
`github.com/lpabon/buffercache`, which `log.go` imports and whose source is
not part of the repository.  It is a bounded mapping from keys to block
bytes with clock replacement: every entry has a reference bit set on
access, eviction rotates a hand that clears bits and reclaims the first
unreferenced slot.  The entries are kept in clock order, the hand at the
head. -/
structure BufferCache where
  capacity : Nat
  entries : List CacheEntry
  deriving DecidableEq

/-- Modelled from the spec: `buffercache.NewClockCache`, an empty cache of
`bcsize` entries. -/
def NewClockCache (bcsize _blocksize : Nat) : BufferCache :=
  { capacity := bcsize, entries := [] }

/-- Modelled from the spec: the clock hand of the buffer cache.  It passes
over referenced entries, clearing their bit, and reclaims the first
unreferenced one; `fuel` bounds the rotation. -/
def clockEvict : Nat → List CacheEntry → List CacheEntry
  | 0, es => es.tail
  | _ + 1, [] => []
  | fuel + 1, e :: es =>
    if e.referenced then clockEvict fuel (es ++ [{ e with referenced := false }])
    else es

namespace BufferCache

/-- Modelled from the spec: `Get(key, buf)` of the buffer cache: on a hit the
entry is marked referenced and its bytes are returned (the caller copies
them into `buf`), a miss returns nothing (the source's `err != nil`). -/
def Get (bc : BufferCache) (key : Nat) : BufferCache × Option (List Nat) :=
  match bc.entries.find? (fun e => e.key == key) with
  | some e =>
    ({ bc with
       entries := bc.entries.map
         (fun x => if x.key == key then { x with referenced := true } else x) },
     some e.data)
  | none => (bc, none)

/-- Modelled from the spec: `Invalidate(key)` of the buffer cache removes
the key. -/
def Invalidate (bc : BufferCache) (key : Nat) : BufferCache :=
  { bc with entries := bc.entries.filter (fun e => !(e.key == key)) }

/-- Modelled from the spec: `Set(key, buf)` of the buffer cache inserts or
updates; a full cache first reclaims a slot with the clock hand. -/
def Set (bc : BufferCache) (key : Nat) (buf : List Nat) : BufferCache :=
  if bc.entries.any (fun e => e.key == key) then
    { bc with
      entries := bc.entries.map
        (fun x => if x.key == key then { x with data := buf, referenced := true } else x) }
  else if bc.capacity = 0 then bc
  else if bc.entries.length < bc.capacity then
    { bc with entries := bc.entries ++ [{ key := key, data := buf, referenced := false }] }
  else
    { bc with
      entries := clockEvict (bc.entries.length + 1) bc.entries
        ++ [{ key := key, data := buf, referenced := false }] }

/-- The bytes the cache holds under `key`, if any. -/
def lookup (bc : BufferCache) (key : Nat) : Option (List Nat) :=
  (bc.entries.find? (fun e => e.key == key)).map CacheEntry.data

end BufferCache

/-! ## The log -/

/-- Where the dispatcher goroutine (`server`) stands: waiting for a message,
at the loop condition of `put` for a message, or inside `sync` between the
send on `chwriting` and the receive from `chavailable`. -/
inductive Pc where
  | idle
  | inPut (msg : Message)
  | inSync (msg : Message)
  deriving DecidableEq

/-- The struct `Log`.  The pointer `segment` is the index of the segment
buffer it points to; `prepared` is the local `s` of the reader goroutine
between the release of the lock of the buffer and the send on `chavailable`
(`log.go` lines 304 to 306): the buffer the reader has taken from `chreader`
and prepared but not yet sent; `done` lists the messages on which `Done()`
has been called, with the buffer they carry back; `pc` is the dispatcher's
position. -/
structure Log where
  size : Nat
  blocksize : Nat
  segmentsize : Nat
  numsegments : Nat
  blocks : Nat
  segments : List IoSegment
  segment : Nat
  segmentbuffers : Nat
  chwriting : List Nat
  chreader : List Nat
  chavailable : List Nat
  prepared : Option Nat
  current : Nat
  maxentries : Nat
  fp : List Nat
  wrapped : Bool
  bc : BufferCache
  logreaders : List Message
  pc : Pc
  done : List Message
  deriving DecidableEq

/-- The function `NewLog`.  `fileok` is the outcome of `os.OpenFile` on the
log file (created empty after `os.Remove`).  The state returned is the one
in which the goroutines are started: every segment buffer but the first is
queued on `chreader`, the first is the current segment. -/
def NewLog (fileok : Bool) (blocks blocksize blocks_per_segment bcsize : Nat) :
    Outcome (Log × Nat) :=
  let segmentsize := (blocks_per_segment * blocksize) % U64
  if blocksize = 0 then .fault .divideByZero else
  let maxentries := segmentsize / blocksize
  if maxentries = 0 then .fault .divideByZero else
  let numsegments := blocks / maxentries
  let blocks1 := (numsegments * maxentries) % U64
  let size := (numsegments * segmentsize) % U64
  let segmentbuffers :=
    if numsegments < fsegmentbuffers then numsegments else fsegmentbuffers
  if numsegments = 0 then .fault .checkNumSegments else
  if !fileok then .fault .checkOpen else
  if size = 0 then .fault .ensureSize else
  .ok ({ size := size
         blocksize := blocksize
         segmentsize := segmentsize
         numsegments := numsegments
         blocks := blocks1
         segments := List.replicate segmentbuffers
           { segmentbuf := List.replicate segmentsize 0, offset := 0, written := false }
         segment := 0
         segmentbuffers := segmentbuffers
         chwriting := []
         chreader := (List.range segmentbuffers).tail
         chavailable := []
         prepared := none
         current := 0
         maxentries := maxentries
         fp := []
         wrapped := false
         bc := NewClockCache bcsize blocksize
         logreaders := []
         pc := .idle
         done := [] }, blocks1)

namespace Log

/-- The segment buffer `c.segments[i]`. -/
def seg (c : Log) (i : Nat) : IoSegment :=
  c.segments.getD i { segmentbuf := [], offset := 0, written := false }

/-- The method `Log.offset`. -/
def offset (c : Log) (index : Nat) : Nat :=
  (index * c.blocksize) % U64

/-- The method `Log.inRange`. -/
def inRange (c : Log) (index : Nat) (s : IoSegment) : Bool :=
  let offset := c.offset index
  decide (s.offset ≤ offset) && decide (offset < (s.offset + c.segmentsize) % U64)

/-- The rest of `put` once the current segment covers the block
(`log.go` lines 343 to 359). -/
def putWrite (c : Log) (msg : Message) : Outcome Log :=
  let offset := c.offset msg.BlockNum
  let bc := c.bc.Invalidate msg.BlockNum
  let s := c.seg c.segment
  let r := WriteAt s.segmentbuf msg.Buffer (offset - s.offset)
  if r.1 ≠ msg.Buffer.length then .fault .checkPutWrite else
  .ok { c with
        bc := bc
        segments := c.segments.set c.segment { s with segmentbuf := r.2, written := true }
        done := c.done ++ [msg]
        pc := .idle }

/-- One evaluation of the loop condition of `put` (`log.go` line 339): when
the current segment does not cover the block the dispatcher enters `sync`
and sends the current segment on `chwriting`, otherwise it runs the rest
of `put`. -/
def put (c : Log) (msg : Message) : Outcome Log :=
  if !c.inRange msg.BlockNum (c.seg c.segment) then
    if c.chwriting.length < c.segmentbuffers then
      .ok { c with chwriting := c.chwriting ++ [c.segment], pc := .inSync msg }
    else .blocked
  else c.putWrite msg

/-- The second half of `sync`: `c.segment = <-c.chavailable`. -/
def sync (c : Log) : Outcome Log :=
  match c.pc, c.chavailable with
  | .inSync msg, i :: rest =>
    .ok { c with segment := i, chavailable := rest, pc := .inPut msg }
  | _, _ => .blocked

/-- The scan of the segment buffers in `get`: the first index from `i` on
whose buffer covers the block. -/
def scan (c : Log) (index : Nat) : Nat → List IoSegment → Option (Nat × IoSegment)
  | _, [] => none
  | i, s :: rest => if c.inRange index s then some (i, s) else scan c index (i + 1) rest

/-- The method `Log.get`. -/
def get (c : Log) (msg : Message) : Outcome Log :=
  let offset := c.offset msg.BlockNum
  match c.bc.Get msg.BlockNum with
  | (bc, some data) =>
    .ok { c with bc := bc, done := c.done ++ [{ msg with Buffer := copy msg.Buffer data }] }
  | (bc, none) =>
    match c.scan msg.BlockNum 0 c.segments with
    | some (_, s) =>
      let r := ReadAt s.segmentbuf msg.Buffer (offset - s.offset)
      if r.1 % U64 ≠ c.blocksize then .fault .checkRamRead else
      .ok { c with
            bc := bc.Set msg.BlockNum r.2
            done := c.done ++ [{ msg with Buffer := r.2 }] }
    | none =>
      if c.logreaders.length < freaders then
        .ok { c with bc := bc, logreaders := c.logreaders ++ [msg] }
      else .blocked

/-- One iteration of the select loop of `server`: a message is taken from
`Msgchan`; a put passes its `Require` and reaches the loop of `put`, a get
runs to its end. -/
def server (c : Log) (msg : Message) : Outcome Log :=
  match c.pc with
  | .idle =>
    match msg.kind with
    | .MsgPut =>
      if msg.BlockNum < c.blocks then .ok { c with pc := .inPut msg }
      else .fault .requireBlockNum
    | .MsgGet => c.get msg
  | _ => .blocked

/-- The dispatcher inside `put`: at the loop condition it runs `put`, inside
`sync` it receives from `chavailable`. -/
def dispatch (c : Log) : Outcome Log :=
  match c.pc with
  | .idle => .blocked
  | .inPut msg => c.put msg
  | .inSync _ => c.sync

/-- One iteration of the loop of `writer`. -/
def writer (c : Log) : Outcome Log :=
  match c.chwriting with
  | [] => .blocked
  | i :: rest =>
    if c.chreader.length < c.segmentbuffers then
      let s := c.seg i
      if s.written then
        .ok { c with
              fp := fileWriteAt c.fp s.segmentbuf s.offset
              segments := c.segments.set i { s with written := false }
              chwriting := rest
              chreader := c.chreader ++ [i] }
      else .ok { c with chwriting := rest, chreader := c.chreader ++ [i] }
    else .blocked

/-- An iteration of the loop of `reader` up to the release of the lock of
the buffer (`log.go` lines 279 to 304): the receive from `chreader`, the
move of the cursor, the new offset of the buffer and, once the log has
wrapped, the pre-read of the segment from the log file.  The reader then
holds the buffer as `prepared`. -/
def reader (c : Log) : Outcome Log :=
  match c.prepared with
  | some _ => .blocked
  | none =>
    match c.chreader with
    | [] => .blocked
    | i :: rest =>
      if c.size = 0 then .fault .divideByZero else
      let s := c.seg i
      let current := ((c.current + c.segmentsize) % U64) % c.size
      let wrapped := c.wrapped || decide (current = 0)
      if wrapped then
        let r := ReadAt c.fp s.segmentbuf current
        if r.1 ≠ s.segmentbuf.length then .fault .checkSegmentRead else
        .ok { c with
              current := current
              wrapped := wrapped
              segments := c.segments.set i { s with offset := current, segmentbuf := r.2 }
              chreader := rest
              prepared := some i }
      else
        .ok { c with
              current := current
              wrapped := wrapped
              segments := c.segments.set i { s with offset := current }
              chreader := rest
              prepared := some i }

/-- The end of an iteration of the loop of `reader` (`log.go` line 306): the
send of the prepared buffer on `chavailable`. -/
def readerSend (c : Log) : Outcome Log :=
  match c.prepared with
  | none => .blocked
  | some i =>
    if c.chavailable.length < c.segmentbuffers then
      .ok { c with chavailable := c.chavailable ++ [i], prepared := none }
    else .blocked

/-- One iteration of the loop of a `logread` worker. -/
def logread (c : Log) : Outcome Log :=
  match c.logreaders with
  | [] => .blocked
  | m :: rest =>
    let offset := c.offset m.BlockNum
    let r := ReadAt c.fp m.Buffer offset
    if r.1 % U64 ≠ c.blocksize then .fault .checkBlockRead else
    if r.1 ≠ m.Buffer.length then .fault .checkBlockReadErr else
    .ok { c with
          logreaders := rest
          bc := c.bc.Set offset r.2
          done := c.done ++ [{ m with Buffer := r.2 }] }

end Log

/-- The atomic actions of the goroutines of a log. -/
inductive Action where
  | msg (m : Message)
  | dispatch
  | writer
  | reader
  | readerSend
  | logread
  deriving DecidableEq

/-- One action on a state. -/
def step (c : Log) : Action → Outcome Log
  | .msg m => c.server m
  | .dispatch => c.dispatch
  | .writer => c.writer
  | .reader => c.reader
  | .readerSend => c.readerSend
  | .logread => c.logread

/-- An execution: the actions in order; it stops at the first fault or
blocked action. -/
def run (c : Log) : List Action → Outcome Log
  | [] => .ok c
  | a :: rest =>
    match step c a with
    | .ok c1 => run c1 rest
    | .fault f => .fault f
    | .blocked => .blocked

/-- A PUT message. -/
def PUT (k : Nat) (buf : List Nat) : Action :=
  .msg { kind := .MsgPut, BlockNum := k, Buffer := buf }

/-- A GET message with a zeroed buffer of `len` bytes. -/
def GET (k len : Nat) : Action :=
  .msg { kind := .MsgGet, BlockNum := k, Buffer := List.replicate len 0 }

/-- An execution from a fresh log: `NewLog` with the log file opening, then
the actions. -/
def exec (blocks blocksize blocks_per_segment bcsize : Nat) (acts : List Action) :
    Outcome Log :=
  match NewLog true blocks blocksize blocks_per_segment bcsize with
  | .ok (l, _) => run l acts
  | .fault f => .fault f
  | .blocked => .blocked

/-- The message completed last in an execution, with the buffer it carries. -/
def lastReply : Outcome Log → Option Message
  | .ok l => l.done.getLast?
  | _ => none

/-- The completed messages of an execution. -/
def replies : Outcome Log → Option (List Message)
  | .ok l => some l.done
  | _ => none

/-- The bytes the buffer cache holds under a key at the end of an execution. -/
def cached (key : Nat) : Outcome Log → Option (Option (List Nat))
  | .ok l => some (l.bc.lookup key)
  | _ => none

/-- The messages waiting on `logreaders` at the end of an execution. -/
def pending : Outcome Log → Option (List Message)
  | .ok l => some l.logreaders
  | _ => none

/-- The bytes of the log file at the end of an execution. -/
def fileOf : Outcome Log → Option (List Nat)
  | .ok l => some l.fp
  | _ => none

/-- The actions of a put that needs `syncs` syncs: the message, then for
every sync the loop condition and the receive, then the loop condition that
lets the write through. -/
def putActs (k : Nat) (buf : List Nat) (syncs : Nat) : List Action :=
  PUT k buf :: List.replicate (2 * syncs + 1) .dispatch

/-- The actions of `n` whole iterations of the reader loop. -/
def readerActs : Nat → List Action
  | 0 => []
  | n + 1 => .reader :: .readerSend :: readerActs n

/-- The execution behind C5 and C7 on a log of 33 segments of one 2-byte
block, 32 segment buffers: blocks 1 and 2 are put, the first two buffers are
written out and reassigned (the second one wraps the cursor), so that block
1 is in no segment buffer; `GET(1)` is then served by a `logread` worker. -/
def missTrace : List Action :=
  readerActs 31 ++ putActs 1 [5, 5] 1 ++ putActs 2 [6, 6] 1
    ++ [.writer, .reader, .readerSend, .writer, .reader, .readerSend, GET 1 2, .logread]

/-- The execution behind C6: blocks 1 and 2 both hold `[6, 6]`; `GET(2)` is
served from a segment buffer and caches `[6, 6]` under the key 2;
`PUT(2, [9, 9])` invalidates the key 2 and completes; block 1 leaves the
segment buffers and `GET(1)` is served from the log file, which stores the
bytes of block 1 under the key `1 · 2 = 2`. -/
def staleTrace : List Action :=
  readerActs 31 ++ putActs 1 [6, 6] 1 ++ putActs 2 [6, 6] 1
    ++ [GET 2 2] ++ putActs 2 [9, 9] 0
    ++ [.writer, .reader, .readerSend, .writer, .reader, .readerSend, GET 1 2, .logread]

/-- The offsets of the segment buffers at the end of an execution. -/
def offsetsOf : Outcome Log → Option (List Nat)
  | .ok l => some (l.segments.map IoSegment.offset)
  | _ => none

/-- The indices of the segment buffers that cover block `k` at the end of an
execution. -/
def covering (k : Nat) : Outcome Log → Option (List Nat)
  | .ok l => some ((List.range l.segmentbuffers).filter (fun i => l.inRange k (l.seg i)))
  | _ => none

/-- The size of the log in bytes at the end of an execution. -/
def logSizeOf : Outcome Log → Option Nat
  | .ok l => some l.size
  | _ => none

/-- The cursor `Log.current` at the end of an execution. -/
def cursorOf : Outcome Log → Option Nat
  | .ok l => some l.current
  | _ => none

/-- The offset of the current segment at the end of an execution. -/
def currentOffsetOf : Outcome Log → Option Nat
  | .ok l => some (l.seg l.segment).offset
  | _ => none

/-- The buffers queued on `chavailable` at the end of an execution. -/
def availableOf : Outcome Log → Option (List Nat)
  | .ok l => some l.chavailable
  | _ => none

/-- The buffer the reader holds at the end of an execution. -/
def preparedOf : Outcome Log → Option (Option Nat)
  | .ok l => some l.prepared
  | _ => none

/-- The state `NewLog` constructs for three blocks of one byte, one block to
the segment, and a buffer cache of four entries. -/
def fresh3 : Log :=
  { size := 3, blocksize := 1, segmentsize := 1, numsegments := 3, blocks := 3
    segments := [{ segmentbuf := [0], offset := 0, written := false },
                 { segmentbuf := [0], offset := 0, written := false },
                 { segmentbuf := [0], offset := 0, written := false }]
    segment := 0, segmentbuffers := 3
    chwriting := [], chreader := [1, 2], chavailable := [], prepared := none
    current := 0, maxentries := 1, fp := [], wrapped := false
    bc := { capacity := 4, entries := [] }
    logreaders := [], pc := .idle, done := [] }

/-- The state of `fresh3` after the reader has prepared the two queued
buffers. -/
def ready3 : Log :=
  { fresh3 with
    segments := [{ segmentbuf := [0], offset := 0, written := false },
                 { segmentbuf := [0], offset := 1, written := false },
                 { segmentbuf := [0], offset := 2, written := false }]
    chreader := [], chavailable := [1, 2], current := 2 }

/-- The state of `ready3` after `PUT(1, [5])`. -/
def afterPut3 : Log :=
  { ready3 with
    segments := [{ segmentbuf := [0], offset := 0, written := false },
                 { segmentbuf := [5], offset := 1, written := true },
                 { segmentbuf := [0], offset := 2, written := false }]
    segment := 1, chwriting := [0], chavailable := [2]
    done := [{ kind := .MsgPut, BlockNum := 1, Buffer := [5] }] }

/-! ## The ring of segment buffers -/

/-- The segment buffers in the order in which the reader will next prepare
them: those queued on `chreader`, those queued on `chwriting`, the current
segment (unless the dispatcher stands inside `sync`, having sent it on
`chwriting`), those queued on `chavailable`, and the buffer the reader has
prepared and not yet sent. -/
def ring (c : Log) : List Nat :=
  c.chreader ++ c.chwriting
    ++ (match c.pc with
        | .inSync _ => []
        | _ => [c.segment])
    ++ c.chavailable ++ c.prepared.toList

/-- The offset of the buffer that stands `m` places after the head of the
ring of a fresh log, `P` buffers on `S` segments of `ss` bytes: the buffers
that the reader has not prepared yet have offset 0, the others follow one
another by one segment around the log. -/
def expected (P S ss m : Nat) : Nat :=
  if P ≤ m + 1 then (m + 1 - P) % S * ss else 0

/-- The buffers of a list carry the expected offsets from place `m` on. -/
def Aligned (P S ss : Nat) (off : Nat → Nat) : Nat → List Nat → Prop
  | _, [] => True
  | m, i :: rest => off i = expected P S ss m ∧ Aligned P S ss off (m + 1) rest

/-- The invariant of the log once the reader has prepared `n` buffers. -/
structure Inv (n : Nat) (c : Log) : Prop where
  size_eq : c.size = c.numsegments * c.segmentsize
  size_lt : c.size < U64
  seg_pos : 0 < c.segmentsize
  bufs_pos : 0 < c.segmentbuffers
  bufs_le : c.segmentbuffers ≤ c.numsegments
  len : c.segments.length = c.segmentbuffers
  nodup : (ring c).Nodup
  ring_len : (ring c).length = c.segmentbuffers
  ring_lt : ∀ i ∈ ring c, i < c.segmentbuffers
  aligned : Aligned c.segmentbuffers c.numsegments c.segmentsize
    (fun i => (c.seg i).offset) n (ring c)
  cursor : c.current = n % c.numsegments * c.segmentsize
  wrapped : c.wrapped = true ↔ c.numsegments ≤ n
  fresh : c.segmentbuffers ≤ c.chreader.length + n + 1
  cur_lt : c.segment < c.segmentbuffers

/-- The segment size at the end of an execution. -/
def segmentSizeOf : Outcome Log → Option Nat
  | .ok l => some l.segmentsize
  | _ => none

/-! ## The loop of `put` -/

/-- The configuration of a log and the precondition of the put in progress:
the effective number of blocks is `numsegments · maxentries`, `maxentries`
blocks fit in a segment, and the block of a message inside `put` has passed
`Require`. -/
structure Cfg (c : Log) : Prop where
  blocks_eq : c.blocks = c.numsegments * c.maxentries
  fits : c.maxentries * c.blocksize ≤ c.segmentsize
  require : ∀ msg, (c.pc = .inPut msg ∨ c.pc = .inSync msg) → msg.BlockNum < c.blocks

namespace Log

/-- The segment of the log in which block `index` lies. -/
def segmentOf (c : Log) (index : Nat) : Nat :=
  c.offset index / c.segmentsize

/-- The number of segments from the one at offset `off` forward, around the
log, to the one in which block `index` lies. -/
def syncsTo (c : Log) (index off : Nat) : Nat :=
  (c.segmentOf index + c.numsegments - off / c.segmentsize) % c.numsegments

/-- The offset of the buffer the dispatcher will receive next from
`chavailable`: that of its head, or, the queue being empty, that of the
buffer the reader has prepared and not yet sent, or, the reader holding
none, the offset the reader will give to the next buffer it prepares. -/
def nextOffset (c : Log) : Nat :=
  match c.chavailable ++ c.prepared.toList with
  | i :: _ => (c.seg i).offset
  | [] => ((c.current + c.segmentsize) % U64) % c.size

/-- The number of steps the dispatcher has left in the put in progress: two
for every sync to come, one for the write. -/
def dispatchLeft (c : Log) : Nat :=
  match c.pc with
  | .idle => 0
  | .inPut msg => 2 * c.syncsTo msg.BlockNum (c.seg c.segment).offset + 1
  | .inSync msg => 2 * c.syncsTo msg.BlockNum c.nextOffset + 2

/-- A bound on the number of actions the log can take without a new
message: a step of the dispatcher may queue a buffer on `chwriting`, a
buffer on `chwriting` takes three actions to reach `chavailable`, one on
`chreader` two, a prepared one the send. -/
def workLeft (c : Log) : Nat :=
  4 * c.dispatchLeft + 3 * c.chwriting.length + 2 * c.chreader.length
    + c.prepared.toList.length + c.logreaders.length

end Log

/-- The reads of the log file by the reader succeed: no execution of the
dispatcher, the writer and the reader from `c` fails the check of the
segment pre-read. -/
def ReadsSucceed (c : Log) : Prop :=
  ∀ sched : List Action,
    (∀ a ∈ sched, a = .dispatch ∨ a = .writer ∨ a = .reader ∨ a = .readerSend) →
    run c sched ≠ .fault .checkSegmentRead

/-- The log file holds the whole log and no segment buffer is longer than a
segment. -/
def Covered (c : Log) : Prop :=
  c.size ≤ c.fp.length ∧ ∀ s ∈ c.segments, s.segmentbuf.length ≤ c.segmentsize

/-- The loop `for !inRange(k, segment) { sync() }` of the put of `msg` in
progress in state `c` terminates: the block has passed `Require`; the
number `d` of syncs from the current segment to the segment of the block is
less than `numsegments`, and zero exactly when the loop condition lets the
put through; the dispatcher, the writer and the reader can bring the log to
the exit of the loop, with a current segment that covers the block, with
`d` sends and `d` receives of the dispatcher; no execution without a new
message is longer than `workLeft`; and every sync, whatever the other
goroutines do in between, moves the current segment one segment forward
around the log and one sync nearer. -/
def PutLoopTerminates (c : Log) (msg : Message) : Prop :=
  msg.BlockNum < c.blocks
    ∧ c.syncsTo msg.BlockNum (c.seg c.segment).offset < c.numsegments
    ∧ (c.inRange msg.BlockNum (c.seg c.segment) = true
        ↔ c.syncsTo msg.BlockNum (c.seg c.segment).offset = 0)
    ∧ (∃ sched c2,
        (∀ a ∈ sched, a = .dispatch ∨ a = .writer ∨ a = .reader ∨ a = .readerSend)
        ∧ run c sched = .ok c2 ∧ c2.pc = .inPut msg
        ∧ c2.inRange msg.BlockNum (c2.seg c2.segment) = true
        ∧ sched.count .dispatch = 2 * c.syncsTo msg.BlockNum (c.seg c.segment).offset)
    ∧ (∀ sched c2, (∀ a ∈ sched, ∀ m, a ≠ .msg m) → run c sched = .ok c2 →
        sched.length ≤ c.workLeft)
    ∧ (∀ others c2,
        (∀ a ∈ others, a = .writer ∨ a = .reader ∨ a = .readerSend ∨ a = .logread) →
        c.syncsTo msg.BlockNum (c.seg c.segment).offset ≠ 0 →
        run c (.dispatch :: others ++ [.dispatch]) = .ok c2 →
        c2.pc = .inPut msg
          ∧ (c2.seg c2.segment).offset
              = ((c.seg c.segment).offset + c.segmentsize) % c.size
          ∧ c2.syncsTo msg.BlockNum (c2.seg c2.segment).offset + 1
              = c.syncsTo msg.BlockNum (c.seg c.segment).offset)

/-- The state `NewLog` constructs for two blocks of one byte, one block to
the segment, and a buffer cache of four entries. -/
def fresh2 : Log :=
  { size := 2, blocksize := 1, segmentsize := 1, numsegments := 2, blocks := 2
    segments := [{ segmentbuf := [0], offset := 0, written := false },
                 { segmentbuf := [0], offset := 0, written := false }]
    segment := 0, segmentbuffers := 2
    chwriting := [], chreader := [1], chavailable := [], prepared := none
    current := 0, maxentries := 1, fp := [], wrapped := false
    bc := { capacity := 4, entries := [] }
    logreaders := [], pc := .idle, done := [] }

/-- The actions that bring `fresh2` to `looping2`: both blocks are put and
written to the file, block 0 is put again, and `PUT(1, [7])` arrives. -/
def toLooping2 : List Action :=
  [.reader, .readerSend] ++ putActs 0 [4] 0 ++ putActs 1 [5] 1
    ++ [.writer, .reader, .readerSend]
    ++ putActs 0 [6] 1 ++ [.writer, .reader, .readerSend, PUT 1 [7]]

/-- A state of the log of `fresh2` in which the file holds the whole log and
`PUT(1, [7])` stands at the loop of `put`, one sync from its segment. -/
def looping2 : Log :=
  { fresh2 with
    segments := [{ segmentbuf := [6], offset := 0, written := true },
                 { segmentbuf := [5], offset := 1, written := false }]
    chreader := [], chavailable := [1], current := 1, fp := [4, 5], wrapped := true
    done := [{ kind := .MsgPut, BlockNum := 0, Buffer := [4] },
             { kind := .MsgPut, BlockNum := 1, Buffer := [5] },
             { kind := .MsgPut, BlockNum := 0, Buffer := [6] }]
    pc := .inPut { kind := .MsgPut, BlockNum := 1, Buffer := [7] } }

/-- The state `NewLog` constructs for 6148914691236517206 blocks of 3 bytes,
two blocks to the segment: 3074457345618258603 segments of 6 bytes, whose
size in bytes overflows `uint64` to 2. -/
def overflowFresh : Log :=
  { size := 2, blocksize := 3, segmentsize := 6, numsegments := 3074457345618258603
    blocks := 6148914691236517206
    segments := List.replicate 32
      { segmentbuf := [0, 0, 0, 0, 0, 0], offset := 0, written := false }
    segment := 0, segmentbuffers := 32
    chwriting := [], chreader := (List.range 32).tail, chavailable := []
    prepared := none
    current := 0, maxentries := 2, fp := [], wrapped := false
    bc := { capacity := 4, entries := [] }
    logreaders := [], pc := .idle, done := [] }

/-- The actions that bring `overflowFresh` to `spinning`: block 0 is put,
`PUT(2)` arrives and syncs once, the writer writes the first buffer to the
file and the reader prepares the second. -/
def toSpinning : List Action :=
  [PUT 0 [1, 1, 1], .dispatch, PUT 2 [2, 2, 2], .dispatch, .writer, .reader, .readerSend,
    .dispatch]

/-- A state of the log of `overflowFresh` in which `PUT(2)` stands at the
loop of `put` and the file holds a whole segment. -/
def spinning : Log :=
  { overflowFresh with
    segments :=
      [{ segmentbuf := [1, 1, 1, 0, 0, 0], offset := 0, written := false },
       { segmentbuf := [1, 1, 1, 0, 0, 0], offset := 0, written := false }]
      ++ List.replicate 30
        { segmentbuf := [0, 0, 0, 0, 0, 0], offset := 0, written := false }
    segment := 1
    chreader := (List.range 32).drop 2 ++ [0]
    fp := [1, 1, 1, 0, 0, 0], wrapped := true
    done := [{ kind := .MsgPut, BlockNum := 0, Buffer := [1, 1, 1] }]
    pc := .inPut { kind := .MsgPut, BlockNum := 2, Buffer := [2, 2, 2] } }

/-- The invariant of the log of `overflowFresh` once the file holds a
segment: the cursor and every offset are 0. -/
def Stuck (c : Log) : Prop :=
  c.size = 2 ∧ c.segmentsize = 6 ∧ c.blocksize = 3 ∧ c.current = 0 ∧ 6 ≤ c.fp.length
    ∧ ∀ s ∈ c.segments, s.offset = 0 ∧ s.segmentbuf.length ≤ 6

end Pblcache

namespace Pblcache

/-! ## Sizing (`NewLog`) -/

/-- Without overflow the segment size holds `blocks_per_segment` blocks. -/
theorem maxentries_eq {blocksize bps : Nat} (hbs : 0 < blocksize)
    (hseg : bps * blocksize < U64) :
    (bps * blocksize) % U64 / blocksize = bps := by
  rw [Nat.mod_eq_of_lt hseg, Nat.mul_div_cancel _ hbs]

/-- The value `NewLog` computes for a configuration without overflow. -/
theorem NewLog_eq (blocks blocksize bps bcsize : Nat)
    (hbs : 0 < blocksize) (hbps : 0 < bps) (hblocks : bps ≤ blocks)
    (hseg : bps * blocksize < U64)
    (hsize : blocks / bps * (bps * blocksize) < U64) :
    ∃ l, NewLog true blocks blocksize bps bcsize = .ok (l, blocks / bps * bps)
      ∧ l.numsegments = blocks / bps
      ∧ l.blocks = blocks / bps * bps
      ∧ l.blocksize = blocksize
      ∧ l.segmentsize = bps * blocksize
      ∧ l.maxentries = bps
      ∧ l.size = blocks / bps * (bps * blocksize)
      ∧ l.segmentbuffers = min (blocks / bps) fsegmentbuffers
      ∧ l.segments = List.replicate (min (blocks / bps) fsegmentbuffers)
          { segmentbuf := List.replicate (bps * blocksize) 0, offset := 0, written := false }
      ∧ l.segment = 0 ∧ l.chwriting = []
      ∧ l.chreader = (List.range (min (blocks / bps) fsegmentbuffers)).tail
      ∧ l.chavailable = [] ∧ l.current = 0 ∧ l.wrapped = false
      ∧ l.fp = [] ∧ l.pc = .idle ∧ l.logreaders = [] := by
  have hS : 0 < blocks / bps := Nat.div_pos hblocks hbps
  have hme := maxentries_eq hbs hseg
  have hle : blocks / bps * bps ≤ blocks / bps * (bps * blocksize) :=
    Nat.mul_le_mul_left _ (Nat.le_mul_of_pos_right _ hbs)
  have hb1 : (blocks / bps * bps) % U64 = blocks / bps * bps :=
    Nat.mod_eq_of_lt (lt_of_le_of_lt hle hsize)
  have hsz : (blocks / bps * (bps * blocksize)) % U64 = blocks / bps * (bps * blocksize) :=
    Nat.mod_eq_of_lt hsize
  have hszpos : blocks / bps * (bps * blocksize) ≠ 0 :=
    Nat.pos_iff_ne_zero.mp (Nat.mul_pos hS (Nat.mul_pos hbps hbs))
  have hmin : (if blocks / bps < fsegmentbuffers then blocks / bps else fsegmentbuffers)
      = min (blocks / bps) fsegmentbuffers := by
    simp only [Nat.min_def]
    split_ifs <;> omega
  have hme1 : bps * blocksize / blocksize = bps := Nat.mul_div_cancel _ hbs
  unfold NewLog
  simp only [Nat.mod_eq_of_lt hseg, hme1, hb1, hsz, hmin]
  rw [if_neg (Nat.pos_iff_ne_zero.mp hbs), if_neg (Nat.pos_iff_ne_zero.mp hbps),
    if_neg (Nat.pos_iff_ne_zero.mp hS), if_neg (by simp), if_neg hszpos]
  exact ⟨_, rfl, rfl, rfl, rfl, rfl, rfl, rfl, rfl, rfl, rfl, rfl, rfl, rfl, rfl, rfl, rfl,
    rfl, rfl⟩

/-- C1: for `blocksize > 0`, `blocks_per_segment > 0`,
`blocks ≥ blocks_per_segment` and no `uint64` overflow in the products,
`NewLog` (the log file opening) returns
`⌊blocks / blocks_per_segment⌋ · blocks_per_segment` as the effective number
of blocks and sets `numsegments` to `⌊blocks / blocks_per_segment⌋`. -/
theorem NewLog_sizing (blocks blocksize bps bcsize : Nat)
    (hbs : 0 < blocksize) (hbps : 0 < bps) (hblocks : bps ≤ blocks)
    (hseg : bps * blocksize < U64)
    (hsize : blocks / bps * (bps * blocksize) < U64) :
    ∃ l, NewLog true blocks blocksize bps bcsize = .ok (l, blocks / bps * bps)
      ∧ l.numsegments = blocks / bps ∧ l.blocks = blocks / bps * bps := by
  obtain ⟨l, h, h1, h2, _⟩ := NewLog_eq blocks blocksize bps bcsize hbs hbps hblocks hseg hsize
  exact ⟨l, h, h1, h2⟩

/-- Witness of C1: 2050 blocks of 4096 bytes, 256 blocks to the segment. -/
theorem NewLog_sizing_witness :
    ∃ l, NewLog true 2050 4096 256 16 = .ok (l, 2050 / 256 * 256)
      ∧ l.numsegments = 2050 / 256 ∧ l.blocks = 2050 / 256 * 256 :=
  NewLog_sizing 2050 4096 256 16 (by decide) (by decide) (by decide)
    (by decide) (by decide)

/-- C3, counterexample: with a block size of 2 and `2^63 + 1` blocks to the
segment the segment size overflows to 2 bytes, one block; a request for one
block, fewer than `blocks_per_segment`, passes the check on `numsegments`
and `NewLog` returns a log of one segment. -/
theorem NewLog_check_overflow :
    0 < 2 ∧ 0 < 2 ^ 63 + 1 ∧ 1 < 2 ^ 63 + 1 ∧ 2 ^ 63 + 1 < U64
      ∧ NewLog true 1 2 (2 ^ 63 + 1) 4 ≠ .fault .checkNumSegments
      ∧ ∃ l, NewLog true 1 2 (2 ^ 63 + 1) 4 = .ok (l, 1) ∧ l.numsegments = 1 := by
  refine ⟨by decide, by decide, by decide, by decide, by decide, _, rfl, rfl⟩

/-- C3, amended: for `blocksize > 0`, `blocks_per_segment > 0` and a segment
size `blocks_per_segment · blocksize` that does not overflow `uint64`,
`NewLog` fails its check on `numsegments` exactly when
`blocks < blocks_per_segment`. -/
theorem NewLog_check_iff (fileok : Bool) (blocks blocksize bps bcsize : Nat)
    (hbs : 0 < blocksize) (hbps : 0 < bps) (hseg : bps * blocksize < U64) :
    NewLog fileok blocks blocksize bps bcsize = .fault .checkNumSegments
      ↔ blocks < bps := by
  have hme := maxentries_eq hbs hseg
  unfold NewLog
  simp only [hme]
  rw [if_neg (Nat.pos_iff_ne_zero.mp hbs), if_neg (Nat.pos_iff_ne_zero.mp hbps)]
  constructor
  · intro h
    by_contra hlt
    have hS : 0 < blocks / bps := Nat.div_pos (Nat.le_of_not_lt hlt) hbps
    rw [if_neg (Nat.pos_iff_ne_zero.mp hS)] at h
    split_ifs at h <;> cases h
  · intro h
    rw [if_pos (Nat.div_eq_of_lt h)]

/-- Witness of C3 amended: one block requested, three to the segment. -/
theorem NewLog_check_iff_witness :
    NewLog true 1 4096 3 4 = .fault .checkNumSegments ↔ 1 < 3 :=
  NewLog_check_iff true 1 4096 3 4 (by decide) (by decide) (by decide)

/-! ## Executions on which the log departs from its contract -/

/-- C2: on a fresh log of two one-block segments, `PUT(1, [7])` completes
(one sync, then the write into the second buffer); the writer skips the
clean first buffer, the reader wraps the cursor to 0 and pre-reads one
segment at offset 0 of the still empty log file: the read is short, the
check `n == len(s.segmentbuf)` fails and the process stops, so the `GET(1)`
that follows is never answered. -/
theorem put_then_get_aborts :
    replies (exec 2 1 1 4
        [.reader, .readerSend, PUT 1 [7], .dispatch, .dispatch, .dispatch])
        = some [{ kind := .MsgPut, BlockNum := 1, Buffer := [7] }]
      ∧ fileOf (exec 2 1 1 4
          [.reader, .readerSend, PUT 1 [7], .dispatch, .dispatch, .dispatch, .writer])
        = some []
      ∧ exec 2 1 1 4
          [.reader, .readerSend, PUT 1 [7], .dispatch, .dispatch, .dispatch, .writer, .reader]
        = .fault .checkSegmentRead
      ∧ exec 2 1 1 4
          [.reader, .readerSend, PUT 1 [7], .dispatch, .dispatch, .dispatch, .writer, .reader,
            GET 1 1]
        = .fault .checkSegmentRead := by decide

/-- C4: on a log of two blocks a `PUT` of block 5 fails `Require`, but a
`GET` of block 5 passes no check: it looks the block up in the buffer cache,
scans the segment buffers and is queued on `logreaders`; the fault comes
later, from the short read of the `logread` worker. -/
theorem get_out_of_range_is_processed :
    exec 2 1 1 4 [.reader, .readerSend, PUT 5 [1]] = .fault .requireBlockNum
      ∧ pending (exec 2 1 1 4 [.reader, .readerSend, GET 5 1])
          = some [{ kind := .MsgGet, BlockNum := 5, Buffer := [0] }]
      ∧ exec 2 1 1 4 [.reader, .readerSend, GET 5 1, .logread]
          = .fault .checkBlockRead := by decide

set_option maxRecDepth 100000 in
/-- C5: after `GET(1)` is served from the log file with `[5, 5]`, the buffer
cache holds it under the key `1 · 2 = 2` and holds nothing under the key 1;
the repeated `GET(1)` looks up the key 1, misses, and is queued on
`logreaders` again instead of being answered from the cache. -/
theorem repeated_get_misses_cache :
    lastReply (exec 33 2 1 8 missTrace)
        = some { kind := .MsgGet, BlockNum := 1, Buffer := [5, 5] }
      ∧ cached 2 (exec 33 2 1 8 missTrace) = some (some [5, 5])
      ∧ cached 1 (exec 33 2 1 8 missTrace) = some none
      ∧ pending (exec 33 2 1 8 (missTrace ++ [GET 1 2]))
          = some [{ kind := .MsgGet, BlockNum := 1, Buffer := [0, 0] }]
      ∧ replies (exec 33 2 1 8 (missTrace ++ [GET 1 2]))
          = replies (exec 33 2 1 8 missTrace) := by decide

set_option maxRecDepth 100000 in
/-- C6: `GET(2)` returns `[6, 6]` and populates the cache, `PUT(2, [9, 9])`
completes, and the next `GET(2)` returns the bytes `[6, 6]` of before the
put, not `[9, 9]`: the entry it hits was stored by the log-file read of
block 1 under the key 2. -/
theorem get_after_put_returns_old_bytes :
    replies (exec 33 2 1 8 (staleTrace ++ [GET 2 2]))
      = some [ { kind := .MsgPut, BlockNum := 1, Buffer := [6, 6] },
          { kind := .MsgPut, BlockNum := 2, Buffer := [6, 6] },
          { kind := .MsgGet, BlockNum := 2, Buffer := [6, 6] },
          { kind := .MsgPut, BlockNum := 2, Buffer := [9, 9] },
          { kind := .MsgGet, BlockNum := 1, Buffer := [6, 6] },
          { kind := .MsgGet, BlockNum := 2, Buffer := [6, 6] } ] := by decide

set_option maxRecDepth 100000 in
/-- C7: block 1 holds `[5, 5]` and block 2 holds `[6, 6]`; after `GET(1)` is
served from the log file, `GET(2)` is answered from the buffer cache with
`[5, 5]`, the content of block 1. -/
theorem get_returns_other_block :
    replies (exec 33 2 1 8 (missTrace ++ [GET 2 2]))
      = some [ { kind := .MsgPut, BlockNum := 1, Buffer := [5, 5] },
          { kind := .MsgPut, BlockNum := 2, Buffer := [6, 6] },
          { kind := .MsgGet, BlockNum := 1, Buffer := [5, 5] },
          { kind := .MsgGet, BlockNum := 2, Buffer := [5, 5] } ] := by decide

set_option maxRecDepth 100000 in
/-- C8: two executions with block numbers in range in which a positional
read reaches past the end of the log file.  On three one-block segments,
after `PUT(0)` and `PUT(2)` the file holds one byte and the reader, wrapped,
pre-reads the skipped segment at offset 1.  On 33 one-block segments
`GET(32)` finds block 32 in no segment buffer and the `logread` worker reads
it from the empty file. -/
theorem reads_past_end_of_file :
    fileOf (exec 3 1 1 4 (readerActs 2 ++ putActs 0 [4] 0 ++ putActs 2 [6] 2
        ++ [.writer, .reader, .readerSend, .writer])) = some [4]
      ∧ exec 3 1 1 4 (readerActs 2 ++ putActs 0 [4] 0 ++ putActs 2 [6] 2
        ++ [.writer, .reader, .readerSend, .writer, .reader]) = .fault .checkSegmentRead
      ∧ fileOf (exec 33 1 1 4 (readerActs 31 ++ [GET 32 1])) = some []
      ∧ exec 33 1 1 4 (readerActs 31 ++ [GET 32 1, .logread])
        = .fault .checkBlockRead := by decide

set_option maxRecDepth 100000 in
/-- A `logread` worker checks the error of its read as well as its length.
On 33 segments of one 2-byte block, with block 1 the last two bytes of the
log file and in no segment buffer, a `GET(1)` that carries a buffer of three
bytes reads two bytes, as many as a block, and meets the end of the file:
the check `err == nil` fails. -/
theorem logread_checks_read_error :
    fileOf (exec 33 2 1 8 (readerActs 31 ++ putActs 1 [5, 5] 1 ++ putActs 2 [6, 6] 1
        ++ [.writer, .reader, .readerSend, .writer, .reader, .readerSend]))
        = some [0, 0, 5, 5]
      ∧ pending (exec 33 2 1 8 (readerActs 31 ++ putActs 1 [5, 5] 1 ++ putActs 2 [6, 6] 1
          ++ [.writer, .reader, .readerSend, .writer, .reader, .readerSend, GET 1 3]))
          = some [{ kind := .MsgGet, BlockNum := 1, Buffer := [0, 0, 0] }]
      ∧ exec 33 2 1 8 (readerActs 31 ++ putActs 1 [5, 5] 1 ++ putActs 2 [6, 6] 1
          ++ [.writer, .reader, .readerSend, .writer, .reader, .readerSend, GET 1 3,
            .logread])
          = .fault .checkBlockReadErr := by decide

/-! ## Lemmas on lists of segment buffers and on the offsets of the ring -/

theorem getD_set_ne (segs : List IoSegment) (i j : Nat) (s d : IoSegment) (h : i ≠ j) :
    (segs.set i s).getD j d = segs.getD j d := by
  simp [List.getElem?_set_ne h]

theorem getD_set_self (segs : List IoSegment) (i : Nat) (s d : IoSegment)
    (h : i < segs.length) : (segs.set i s).getD i d = s := by
  simp [List.getElem?_set_self h]

/-- Replacing a buffer by one with the same offset changes no offset. -/
theorem getD_set_offset (segs : List IoSegment) (i j : Nat) (s d : IoSegment)
    (h : s.offset = (segs.getD i d).offset) :
    ((segs.set i s).getD j d).offset = (segs.getD j d).offset := by
  by_cases hij : i = j
  · subst hij
    by_cases hi : i < segs.length
    · rw [getD_set_self segs i s d hi, h]
    · rw [List.set_eq_of_length_le (Nat.le_of_not_lt hi)]
  · rw [getD_set_ne segs i j s d hij]

theorem Aligned_append (P S ss : Nat) (off : Nat → Nat) (xs ys : List Nat) (m : Nat) :
    Aligned P S ss off m (xs ++ ys)
      ↔ Aligned P S ss off m xs ∧ Aligned P S ss off (m + xs.length) ys := by
  induction xs generalizing m with
  | nil => simp [Aligned]
  | cons x xs ih =>
    have hlen : m + 1 + xs.length = m + (xs.length + 1) := by omega
    show (off x = expected P S ss m ∧ Aligned P S ss off (m + 1) (xs ++ ys)) ↔ _
    rw [ih (m + 1), hlen]
    simp only [Aligned, List.length_cons, and_assoc]

theorem Aligned_congr (P S ss : Nat) (off off1 : Nat → Nat) (xs : List Nat) (m : Nat)
    (h : ∀ i ∈ xs, off1 i = off i) (ha : Aligned P S ss off m xs) :
    Aligned P S ss off1 m xs := by
  induction xs generalizing m with
  | nil => trivial
  | cons x xs ih =>
    obtain ⟨h1, h2⟩ := ha
    refine ⟨?_, ih (m + 1) (fun i hi => h i (List.mem_cons_of_mem _ hi)) h2⟩
    rw [h x (List.mem_cons_self _ _), h1]

/-- The offset of the buffer at place `j` of an aligned list. -/
theorem Aligned_get (P S ss : Nat) (off : Nat → Nat) (xs : List Nat) (m j : Nat)
    (ha : Aligned P S ss off m xs) (hj : j < xs.length) :
    off (xs.get ⟨j, hj⟩) = expected P S ss (m + j) := by
  induction xs generalizing m j with
  | nil => simp at hj
  | cons x xs ih =>
    obtain ⟨h1, h2⟩ := ha
    cases j with
    | zero => simpa using h1
    | succ j =>
      have := ih (m + 1) j h2 (by simpa using hj)
      simp only [List.get_cons_succ]
      rw [this]
      congr 1
      omega

/-- The cursor after one more iteration of the reader loop. -/
theorem cursor_advance (S ss n : Nat) (hS : 0 < S) (hlt : S * ss < U64) :
    ((n % S * ss + ss) % U64) % (S * ss) = (n + 1) % S * ss := by
  have h1 : n % S * ss + ss = (n % S + 1) * ss := by ring
  have h2 : (n % S + 1) * ss ≤ S * ss := Nat.mul_le_mul_right _ (Nat.mod_lt n hS)
  rw [h1, Nat.mod_eq_of_lt (lt_of_le_of_lt h2 hlt), Nat.mul_mod_mul_right]
  rw [Nat.mod_add_mod]

/-- The cursor is zero after `n + 1` iterations, or was before, exactly from
the `S`-th iteration on. -/
theorem wrapped_advance (S ss n : Nat) (hss : 0 < ss) :
    (S ≤ n ∨ (n + 1) % S * ss = 0) ↔ S ≤ n + 1 := by
  constructor
  · rintro (h | h)
    · omega
    · have h0 : (n + 1) % S = 0 := by
        rcases Nat.mul_eq_zero.mp h with h | h
        · exact h
        · omega
      exact Nat.le_of_dvd (Nat.succ_pos n) (Nat.dvd_of_mod_eq_zero h0)
  · intro h
    by_cases hn : S ≤ n
    · exact Or.inl hn
    · right
      have : n + 1 = S := by omega
      rw [this, Nat.mod_self, Nat.zero_mul]

/-! ## The invariant holds in every reachable state -/

/-- A step that keeps the configuration, the cursor, the offsets and the
ring keeps the invariant. -/
theorem Inv.transfer {n : Nat} {c c1 : Log} (h : Inv n c)
    (hsize : c1.size = c.size) (hss : c1.segmentsize = c.segmentsize)
    (hS : c1.numsegments = c.numsegments) (hP : c1.segmentbuffers = c.segmentbuffers)
    (hlen : c1.segments.length = c.segments.length)
    (hoff : ∀ j, (c1.seg j).offset = (c.seg j).offset)
    (hring : ring c1 = ring c) (hcur : c1.current = c.current)
    (hw : c1.wrapped = c.wrapped) (hr : c.chreader.length ≤ c1.chreader.length)
    (hseg : c1.segment < c.segmentbuffers) : Inv n c1 where
  size_eq := by rw [hsize, hS, hss]; exact h.size_eq
  size_lt := by rw [hsize]; exact h.size_lt
  seg_pos := by rw [hss]; exact h.seg_pos
  bufs_pos := by rw [hP]; exact h.bufs_pos
  bufs_le := by rw [hP, hS]; exact h.bufs_le
  len := by rw [hlen, hP]; exact h.len
  nodup := by rw [hring]; exact h.nodup
  ring_len := by rw [hring, hP]; exact h.ring_len
  ring_lt := by rw [hring, hP]; exact h.ring_lt
  aligned := by
    rw [hring, hP, hS, hss]
    exact Aligned_congr _ _ _ _ _ _ _ (fun i _ => hoff i) h.aligned
  cursor := by rw [hcur, hS, hss]; exact h.cursor
  wrapped := by rw [hw, hS]; exact h.wrapped
  fresh := by rw [hP]; exact le_trans h.fresh (by omega)
  cur_lt := by rw [hP]; exact hseg

/-- Buffers that all have offset 0 are aligned as long as the reader has
not been through the ring. -/
theorem Aligned_zero (P S ss : Nat) (off : Nat → Nat) (h0 : ∀ i, off i = 0) (m : Nat)
    (xs : List Nat) (hm : m + xs.length ≤ P) : Aligned P S ss off m xs := by
  induction xs generalizing m with
  | nil => trivial
  | cons x xs ih =>
    simp only [List.length_cons] at hm
    refine ⟨?_, ih (m + 1) (by omega)⟩
    rw [h0 x]
    unfold expected
    split_ifs with hp
    · have : m + 1 - P = 0 := by omega
      rw [this, Nat.zero_mod, Nat.zero_mul]
    · rfl

/-- The state `NewLog` returns satisfies the invariant, provided the size of
the log in bytes does not overflow. -/
theorem NewLog_inv (fileok : Bool) (blocks blocksize bps bcsize : Nat) (l : Log) (b : Nat)
    (h : NewLog fileok blocks blocksize bps bcsize = .ok (l, b))
    (hsize : l.numsegments * l.segmentsize < U64) : Inv 0 l := by
  simp only [NewLog] at h
  generalize hss : (bps * blocksize) % U64 = ss at h
  generalize hS : blocks / (ss / blocksize) = S at h
  generalize hP : (if S < fsegmentbuffers then S else fsegmentbuffers) = P at h
  split_ifs at h with h1 h2 h3 h4 h5
  obtain ⟨rfl, rfl⟩ := Prod.mk.inj (Outcome.ok.inj h)
  simp only at hsize
  have hsspos : 0 < ss := by
    by_contra hc
    have h0 : ss = 0 := by omega
    rw [h0, Nat.zero_div] at h2
    exact h2 rfl
  have hSpos : 0 < S := Nat.pos_of_ne_zero h3
  have hPpos : 0 < P := by
    rw [← hP]; split_ifs
    · exact hSpos
    · decide
  have hPle : P ≤ S := by
    rw [← hP]; split_ifs <;> omega
  have hperm : ((List.range P).tail ++ [0]).Perm (List.range P) := by
    obtain ⟨q, hq⟩ : ∃ q, P = q + 1 := ⟨P - 1, by omega⟩
    rw [hq, List.range_succ_eq_map]
    exact List.perm_append_singleton _ _
  have hlenr : ((List.range P).tail ++ [0]).length = P := by
    rw [hperm.length_eq, List.length_range]
  refine
    { size_eq := Nat.mod_eq_of_lt hsize
      size_lt := Nat.mod_lt _ (by decide)
      seg_pos := hsspos
      bufs_pos := hPpos
      bufs_le := hPle
      len := List.length_replicate _ _
      nodup := ?_
      ring_len := ?_
      ring_lt := ?_
      aligned := ?_
      cursor := by simp
      wrapped := ?_
      fresh := ?_
      cur_lt := hPpos }
  · show ((List.range P).tail ++ [] ++ [0] ++ [] ++ []).Nodup
    simp only [List.append_nil]
    exact hperm.nodup_iff.mpr (List.nodup_range P)
  · show ((List.range P).tail ++ [] ++ [0] ++ [] ++ []).length = P
    simp only [List.append_nil]
    exact hlenr
  · intro i hi
    have hi1 : i ∈ (List.range P).tail ++ [] ++ [0] ++ [] ++ [] := hi
    simp only [List.append_nil] at hi1
    exact List.mem_range.mp (hperm.mem_iff.mp hi1)
  · show Aligned P S ss _ 0 ((List.range P).tail ++ [] ++ [0] ++ [] ++ [])
    simp only [List.append_nil]
    refine Aligned_zero _ _ _ _ ?_ 0 _ (by rw [hlenr]; omega)
    intro i
    simp only [Log.seg, List.getD_eq_getElem?_getD, List.getElem?_replicate]
    split_ifs <;> rfl
  · constructor
    · intro hc; cases hc
    · intro hc
      have hc1 : S ≤ 0 := hc
      omega
  · show P ≤ (List.range P).tail.length + 0 + 1
    rw [List.length_tail, List.length_range]; omega

/-- What the reader does when it prepares a buffer and does not fail: it
holds none, takes the head of `chreader`, moves the cursor one segment on,
gives the buffer the cursor as its offset and holds it. -/
theorem reader_ok (c c1 : Log) (h : c.reader = .ok c1) :
    ∃ i rest buf, c.chreader = i :: rest ∧ c.size ≠ 0 ∧ c.prepared = none ∧
      c1 = { c with
             current := ((c.current + c.segmentsize) % U64) % c.size
             wrapped := c.wrapped
               || decide (((c.current + c.segmentsize) % U64) % c.size = 0)
             segments := c.segments.set i
               { segmentbuf := buf
                 offset := ((c.current + c.segmentsize) % U64) % c.size
                 written := (c.seg i).written }
             chreader := rest
             prepared := some i } := by
  unfold Log.reader at h
  cases hp : c.prepared with
  | some j => rw [hp] at h; cases h
  | none =>
    rw [hp] at h
    simp only at h
    cases hch : c.chreader with
    | nil => rw [hch] at h; cases h
    | cons i rest =>
      rw [hch] at h
      simp only at h
      split_ifs at h with h1 h2 h3
      · exact ⟨i, rest, _, rfl, h1, rfl, (Outcome.ok.inj h).symm⟩
      · exact ⟨i, rest, _, rfl, h1, rfl, (Outcome.ok.inj h).symm⟩

/-- What the reader does when it sends the buffer it has prepared: the
buffer goes to the tail of `chavailable` and the reader holds none. -/
theorem readerSend_ok (c c1 : Log) (h : c.readerSend = .ok c1) :
    ∃ i, c.prepared = some i ∧ c.chavailable.length < c.segmentbuffers ∧
      c1 = { c with chavailable := c.chavailable ++ [i], prepared := none } := by
  unfold Log.readerSend at h
  cases hp : c.prepared with
  | none => rw [hp] at h; cases h
  | some i =>
    rw [hp] at h
    simp only at h
    split_ifs at h with h1
    exact ⟨i, rfl, h1, (Outcome.ok.inj h).symm⟩

/-- The reader preparing a buffer keeps the invariant, one buffer on. -/
theorem reader_inv {n : Nat} {c c1 : Log} (hinv : Inv n c) (h : c.reader = .ok c1) :
    Inv (n + 1) c1 := by
  obtain ⟨i, rest, buf, hch, _, hprep, rfl⟩ := reader_ok c c1 h
  have hSpos : 0 < c.numsegments := lt_of_lt_of_le hinv.bufs_pos hinv.bufs_le
  have hlt : c.numsegments * c.segmentsize < U64 := hinv.size_eq ▸ hinv.size_lt
  have hcur : ((c.current + c.segmentsize) % U64) % c.size
      = (n + 1) % c.numsegments * c.segmentsize := by
    rw [hinv.cursor, hinv.size_eq]
    exact cursor_advance _ _ _ hSpos hlt
  obtain ⟨T, hT, hT1⟩ : ∃ T, ring c = i :: T ∧
      ring { c with
             current := ((c.current + c.segmentsize) % U64) % c.size
             wrapped := c.wrapped
               || decide (((c.current + c.segmentsize) % U64) % c.size = 0)
             segments := c.segments.set i
               { segmentbuf := buf
                 offset := ((c.current + c.segmentsize) % U64) % c.size
                 written := (c.seg i).written }
             chreader := rest
             prepared := some i } = T ++ [i] := by
    refine ⟨rest ++ c.chwriting ++ (match c.pc with
        | .inSync _ => []
        | _ => [c.segment]) ++ c.chavailable, ?_, ?_⟩
    · simp [ring, hch, hprep]
    · simp [ring]
  have hnd : (i :: T).Nodup := hT ▸ hinv.nodup
  have hlen : T.length + 1 = c.segmentbuffers := by
    have := hinv.ring_len
    rw [hT] at this
    simpa using this
  have hi : i < c.segments.length := by
    rw [hinv.len]
    exact hinv.ring_lt i (by rw [hT]; exact List.mem_cons_self _ _)
  have hal := hinv.aligned
  rw [hT] at hal
  refine
    { size_eq := hinv.size_eq
      size_lt := hinv.size_lt
      seg_pos := hinv.seg_pos
      bufs_pos := hinv.bufs_pos
      bufs_le := hinv.bufs_le
      len := ?_
      nodup := ?_
      ring_len := ?_
      ring_lt := ?_
      aligned := ?_
      cursor := hcur
      wrapped := ?_
      fresh := ?_
      cur_lt := hinv.cur_lt }
  · show (c.segments.set i _).length = c.segmentbuffers
    rw [List.length_set]; exact hinv.len
  · rw [hT1]
    exact (List.perm_append_singleton i T).nodup_iff.mpr hnd
  · rw [hT1]
    show (T ++ [i]).length = c.segmentbuffers
    rw [List.length_append, List.length_singleton]; exact hlen
  · rw [hT1]
    intro j hj
    have hj1 : j ∈ i :: T := (List.perm_append_singleton i T).mem_iff.mp hj
    exact hinv.ring_lt j (by rw [hT]; exact hj1)
  · rw [hT1]
    show Aligned c.segmentbuffers c.numsegments c.segmentsize _ (n + 1) (T ++ [i])
    rw [Aligned_append]
    constructor
    · refine Aligned_congr _ _ _ _ _ _ _ ?_ hal.2
      intro j hj
      have hne : i ≠ j := by
        rintro rfl
        exact (List.nodup_cons.mp hnd).1 hj
      show ((c.segments.set i _).getD j _).offset = _
      rw [getD_set_ne _ _ _ _ _ hne]
      rfl
    · refine ⟨?_, trivial⟩
      show ((c.segments.set i _).getD i _).offset = _
      rw [getD_set_self _ _ _ _ hi]
      show ((c.current + c.segmentsize) % U64) % c.size = _
      rw [hcur]
      unfold expected
      rw [if_pos (by omega)]
      congr 2
      omega
  · show (c.wrapped || decide (((c.current + c.segmentsize) % U64) % c.size = 0)) = true
      ↔ c.numsegments ≤ n + 1
    rw [hcur, Bool.or_eq_true, decide_eq_true_iff, hinv.wrapped]
    exact wrapped_advance _ _ _ hinv.seg_pos
  · show c.segmentbuffers ≤ rest.length + (n + 1) + 1
    have := hinv.fresh
    rw [hch, List.length_cons] at this
    omega

/-- An iteration of the writer loop keeps the invariant. -/
theorem writer_inv {n : Nat} {c c1 : Log} (hinv : Inv n c) (h : c.writer = .ok c1) :
    Inv n c1 := by
  unfold Log.writer at h
  cases hch : c.chwriting with
  | nil => rw [hch] at h; cases h
  | cons i rest =>
    rw [hch] at h
    simp only at h
    split_ifs at h with h1 h2
    · have hc := (Outcome.ok.inj h).symm
      subst hc
      refine hinv.transfer rfl rfl rfl rfl (List.length_set _ _ _) ?_ ?_ rfl rfl ?_ hinv.cur_lt
      · intro j
        exact getD_set_offset _ _ _ _ _ rfl
      · simp [ring, hch]
      · simp
    · have hc := (Outcome.ok.inj h).symm
      subst hc
      refine hinv.transfer rfl rfl rfl rfl rfl (fun _ => rfl) ?_ rfl rfl ?_ hinv.cur_lt
      · simp [ring, hch]
      · simp

/-- The reader sending the buffer it has prepared keeps the invariant. -/
theorem readerSend_inv {n : Nat} {c c1 : Log} (hinv : Inv n c)
    (h : c.readerSend = .ok c1) : Inv n c1 := by
  obtain ⟨i, hprep, _, rfl⟩ := readerSend_ok c c1 h
  refine hinv.transfer rfl rfl rfl rfl rfl (fun _ => rfl) ?_ rfl rfl le_rfl hinv.cur_lt
  simp [ring, hprep]

/-- A `get` keeps the invariant: it touches the buffer cache, the completed
messages and `logreaders` only. -/
theorem get_inv {n : Nat} {c c1 : Log} (msg : Message) (hinv : Inv n c)
    (h : c.get msg = .ok c1) : Inv n c1 := by
  unfold Log.get at h
  simp only at h
  split at h
  · have hc := (Outcome.ok.inj h).symm
    subst hc
    exact hinv.transfer rfl rfl rfl rfl rfl (fun _ => rfl) rfl rfl rfl le_rfl hinv.cur_lt
  · split at h
    · split_ifs at h
      have hc := (Outcome.ok.inj h).symm
      subst hc
      exact hinv.transfer rfl rfl rfl rfl rfl (fun _ => rfl) rfl rfl rfl le_rfl hinv.cur_lt
    · split_ifs at h
      have hc := (Outcome.ok.inj h).symm
      subst hc
      exact hinv.transfer rfl rfl rfl rfl rfl (fun _ => rfl) rfl rfl rfl le_rfl hinv.cur_lt

/-- The dispatcher taking a message keeps the invariant. -/
theorem server_inv {n : Nat} {c c1 : Log} (msg : Message) (hinv : Inv n c)
    (h : c.server msg = .ok c1) : Inv n c1 := by
  unfold Log.server at h
  cases hpc : c.pc with
  | idle =>
    rw [hpc] at h
    simp only at h
    cases hk : msg.kind with
    | MsgPut =>
      rw [hk] at h
      simp only at h
      split_ifs at h
      have hc := (Outcome.ok.inj h).symm
      subst hc
      refine hinv.transfer rfl rfl rfl rfl rfl (fun _ => rfl) ?_ rfl rfl le_rfl hinv.cur_lt
      simp [ring, hpc]
    | MsgGet =>
      rw [hk] at h
      exact get_inv msg hinv h
  | inPut m => rw [hpc] at h; cases h
  | inSync m => rw [hpc] at h; cases h

/-- The dispatcher inside `put` keeps the invariant. -/
theorem dispatch_inv {n : Nat} {c c1 : Log} (hinv : Inv n c)
    (h : c.dispatch = .ok c1) : Inv n c1 := by
  unfold Log.dispatch at h
  cases hpc : c.pc with
  | idle => rw [hpc] at h; cases h
  | inPut msg =>
    rw [hpc] at h
    simp only [Log.put, Log.putWrite] at h
    split_ifs at h with h1 h2 h3
    · have hc := (Outcome.ok.inj h).symm
      subst hc
      refine hinv.transfer rfl rfl rfl rfl rfl (fun _ => rfl) ?_ rfl rfl le_rfl hinv.cur_lt
      simp [ring, hpc]
    · have hc := (Outcome.ok.inj h).symm
      subst hc
      refine hinv.transfer rfl rfl rfl rfl (List.length_set _ _ _) ?_ ?_ rfl rfl le_rfl
        hinv.cur_lt
      · intro j
        exact getD_set_offset _ _ _ _ _ rfl
      · simp [ring, hpc]
  | inSync msg =>
    rw [hpc] at h
    simp only [Log.sync, hpc] at h
    cases hav : c.chavailable with
    | nil => rw [hav] at h; cases h
    | cons i rest =>
      rw [hav] at h
      have hc := (Outcome.ok.inj h).symm
      subst hc
      refine hinv.transfer rfl rfl rfl rfl rfl (fun _ => rfl) ?_ rfl rfl le_rfl ?_
      · simp [ring, hpc, hav]
      · exact hinv.ring_lt i (by simp [ring, hav])

/-- Every action keeps the invariant; the reader preparing a buffer moves it
one buffer on. -/
theorem step_inv {n : Nat} {c c1 : Log} (a : Action) (hinv : Inv n c)
    (h : step c a = .ok c1) : Inv (n + (if a = .reader then 1 else 0)) c1 := by
  cases a with
  | msg m => exact server_inv m hinv h
  | dispatch => exact dispatch_inv hinv h
  | writer => exact writer_inv hinv h
  | reader => exact reader_inv hinv h
  | readerSend => exact readerSend_inv hinv h
  | logread =>
    have h1 : c.logread = .ok c1 := h
    unfold Log.logread at h1
    cases hl : c.logreaders with
    | nil => rw [hl] at h1; cases h1
    | cons m rest =>
      rw [hl] at h1
      simp only at h1
      split_ifs at h1
      have hc := (Outcome.ok.inj h1).symm
      subst hc
      exact hinv.transfer rfl rfl rfl rfl rfl (fun _ => rfl) rfl rfl rfl le_rfl hinv.cur_lt

/-- The invariant along an execution: the buffers the reader prepares are
counted. -/
theorem run_inv {n : Nat} {c c1 : Log} (acts : List Action) (hinv : Inv n c)
    (h : run c acts = .ok c1) : Inv (n + acts.count .reader) c1 := by
  induction acts generalizing n c with
  | nil =>
    have hc : c = c1 := Outcome.ok.inj h
    subst hc
    simpa using hinv
  | cons a rest ih =>
    unfold run at h
    cases hs : step c a with
    | ok c2 =>
      rw [hs] at h
      have h2 := ih (step_inv a hinv hs) h
      have hcount : n + (if a = .reader then 1 else 0) + List.count .reader rest
          = n + List.count .reader (a :: rest) := by
        rw [List.count_cons]
        by_cases ha : a = .reader
        · subst ha; simp; omega
        · have : ¬ (a == Action.reader) = true := by simpa using ha
          simp [ha, this]
      rw [hcount] at h2
      exact h2
    | fault f => rw [hs] at h; cases h
    | blocked => rw [hs] at h; cases h

/-! ## Consequences of the invariant -/

/-- Every segment buffer stands in the ring. -/
theorem mem_ring {n : Nat} {c : Log} (hinv : Inv n c) (i : Nat)
    (hi : i < c.segmentbuffers) : i ∈ ring c := by
  have hsub : ring c ⊆ List.range c.segmentbuffers :=
    fun j hj => List.mem_range.mpr (hinv.ring_lt j hj)
  have hperm : (ring c).Perm (List.range c.segmentbuffers) :=
    (List.subperm_of_subset hinv.nodup hsub).perm_of_length_le
      (by rw [List.length_range, hinv.ring_len])
  exact hperm.mem_iff.mpr (List.mem_range.mpr hi)

/-- The offset of a segment buffer is a whole number of segments, below the
number of segments of the log. -/
theorem offset_form {n : Nat} {c : Log} (hinv : Inv n c) (i : Nat)
    (hi : i < c.segmentbuffers) :
    ∃ q, q < c.numsegments ∧ (c.seg i).offset = q * c.segmentsize := by
  have hSpos : 0 < c.numsegments := lt_of_lt_of_le hinv.bufs_pos hinv.bufs_le
  obtain ⟨a, ha, hget⟩ := List.getElem_of_mem (mem_ring hinv i hi)
  have h := Aligned_get _ _ _ _ _ n a hinv.aligned ha
  have hget1 : (ring c).get ⟨a, ha⟩ = i := hget
  rw [hget1] at h
  have h : (c.seg i).offset
      = expected c.segmentbuffers c.numsegments c.segmentsize (n + a) := h
  unfold expected at h
  split_ifs at h
  · exact ⟨_, Nat.mod_lt _ hSpos, h⟩
  · exact ⟨0, hSpos, by rw [h, Nat.zero_mul]⟩

/-- Once the reader has prepared its first `P - 1` buffers, the
buffers of the ring have pairwise distinct offsets. -/
theorem offsets_injective {n : Nat} {c : Log} (hinv : Inv n c)
    (hn : c.segmentbuffers - 1 ≤ n) (i j : Nat)
    (hi : i < c.segmentbuffers) (hj : j < c.segmentbuffers)
    (hoff : (c.seg i).offset = (c.seg j).offset) : i = j := by
  obtain ⟨a, ha, hgeta⟩ := List.getElem_of_mem (mem_ring hinv i hi)
  obtain ⟨b, hb, hgetb⟩ := List.getElem_of_mem (mem_ring hinv j hj)
  have h1 := Aligned_get _ _ _ _ _ n a hinv.aligned ha
  have h2 := Aligned_get _ _ _ _ _ n b hinv.aligned hb
  have hgeta1 : (ring c).get ⟨a, ha⟩ = i := hgeta
  have hgetb1 : (ring c).get ⟨b, hb⟩ = j := hgetb
  rw [hgeta1] at h1
  rw [hgetb1] at h2
  have h1 : (c.seg i).offset
      = expected c.segmentbuffers c.numsegments c.segmentsize (n + a) := h1
  have h2 : (c.seg j).offset
      = expected c.segmentbuffers c.numsegments c.segmentsize (n + b) := h2
  have hP := hinv.ring_len
  unfold expected at h1 h2
  rw [if_pos (by omega)] at h1 h2
  rw [h1, h2] at hoff
  have hmod := Nat.eq_of_mul_eq_mul_right hinv.seg_pos hoff
  have ea : n + a + 1 - c.segmentbuffers = (n + 1 - c.segmentbuffers) + a := by omega
  have eb : n + b + 1 - c.segmentbuffers = (n + 1 - c.segmentbuffers) + b := by omega
  rw [ea, eb] at hmod
  have hab : a ≡ b [MOD c.numsegments] := Nat.ModEq.add_left_cancel' _ hmod
  have hale : a < c.numsegments := lt_of_lt_of_le (hP ▸ ha) hinv.bufs_le
  have hble : b < c.numsegments := lt_of_lt_of_le (hP ▸ hb) hinv.bufs_le
  have hab1 : a = b := by
    have := hab
    unfold Nat.ModEq at this
    rwa [Nat.mod_eq_of_lt hale, Nat.mod_eq_of_lt hble] at this
  subst hab1
  rw [← hgeta1, ← hgetb1]

/-- Two buffers that cover the same block have the same offset. -/
theorem inRange_offset_eq {n : Nat} {c : Log} (hinv : Inv n c) (k i j : Nat)
    (hi : i < c.segmentbuffers) (hj : j < c.segmentbuffers)
    (hki : c.inRange k (c.seg i) = true) (hkj : c.inRange k (c.seg j) = true) :
    (c.seg i).offset = (c.seg j).offset := by
  obtain ⟨p, hp, hpo⟩ := offset_form hinv i hi
  obtain ⟨q, hq, hqo⟩ := offset_form hinv j hj
  have hlt : c.numsegments * c.segmentsize < U64 := hinv.size_eq ▸ hinv.size_lt
  have hbound : ∀ r, r < c.numsegments →
      (r * c.segmentsize + c.segmentsize) % U64 = (r + 1) * c.segmentsize := by
    intro r hr
    have h1 : r * c.segmentsize + c.segmentsize = (r + 1) * c.segmentsize := by ring
    have h2 : (r + 1) * c.segmentsize ≤ c.numsegments * c.segmentsize :=
      Nat.mul_le_mul_right _ hr
    rw [h1, Nat.mod_eq_of_lt (lt_of_le_of_lt h2 hlt)]
  unfold Log.inRange at hki hkj
  simp only [Bool.and_eq_true, decide_eq_true_iff] at hki hkj
  rw [hpo, hbound p hp] at hki
  rw [hqo, hbound q hq] at hkj
  rw [hpo, hqo]
  have hpq : p = q := by
    have hss := hinv.seg_pos
    by_contra hne
    rcases Nat.lt_or_gt_of_ne hne with hlt1 | hlt1
    · have : (p + 1) * c.segmentsize ≤ q * c.segmentsize := Nat.mul_le_mul_right _ hlt1
      omega
    · have : (q + 1) * c.segmentsize ≤ p * c.segmentsize := Nat.mul_le_mul_right _ hlt1
      omega
  rw [hpq]

/-- Outside `sync` the ring is the buffers behind the current segment, the
current segment, and the buffers the reader has prepared for it. -/
theorem ring_outside_sync (c : Log) (hpc : ∀ m, c.pc ≠ .inSync m) :
    ring c = (c.chreader ++ c.chwriting)
      ++ ([c.segment] ++ (c.chavailable ++ c.prepared.toList)) := by
  unfold ring
  cases h : c.pc with
  | idle => simp
  | inPut m => simp
  | inSync m => exact absurd h (hpc m)

/-- Outside `sync` the current segment stands as many segments behind the
cursor as there are buffers prepared for it: those on `chavailable` and the
one the reader holds. -/
theorem current_offset {n : Nat} {c : Log} (hinv : Inv n c)
    (hpc : ∀ m, c.pc ≠ .inSync m) :
    ((c.seg c.segment).offset
        + (c.chavailable ++ c.prepared.toList).length * c.segmentsize) % c.size
      = c.current := by
  have hring := ring_outside_sync c hpc
  have hal := hinv.aligned
  have hlen := hinv.ring_len
  rw [hring] at hal hlen
  rw [Aligned_append] at hal
  have hoff : (c.seg c.segment).offset
      = expected c.segmentbuffers c.numsegments c.segmentsize
          (n + (c.chreader ++ c.chwriting).length) := hal.2.1
  generalize c.chavailable ++ c.prepared.toList = av at hlen ⊢
  simp only [List.length_append, List.length_singleton] at hlen hoff
  have hfresh := hinv.fresh
  unfold expected at hoff
  rw [if_pos (by omega)] at hoff
  have hidx : n + (c.chreader.length + c.chwriting.length) + 1 - c.segmentbuffers
      = n - av.length := by omega
  have hle : av.length ≤ n := by omega
  rw [hidx] at hoff
  rw [hoff, hinv.cursor, hinv.size_eq, ← Nat.add_mul, Nat.mul_mod_mul_right,
    Nat.mod_add_mod, Nat.sub_add_cancel hle]

/-! ## The segment buffers of a reachable state -/

/-- C9, counterexample: in the state `NewLog` constructs for two segments
both segment buffers have offset 0 and both cover block 0; on three segments,
after one iteration of the reader, the first buffer and the third, still
queued on `chreader`, both have offset 0 and both cover block 0. -/
theorem initial_buffers_overlap :
    offsetsOf (exec 2 1 1 4 []) = some [0, 0]
      ∧ covering 0 (exec 2 1 1 4 []) = some [0, 1]
      ∧ offsetsOf (exec 3 1 1 4 [.reader, .readerSend]) = some [0, 1, 0]
      ∧ covering 0 (exec 3 1 1 4 [.reader, .readerSend]) = some [0, 2] := by decide

/-- C9, amended: in every state reached from the state `NewLog` constructs
(the size of the log in bytes not overflowing `uint64`) by an execution in
which the reader has prepared at least `P - 1` buffers, that is, the buffers
`NewLog` queued on `chreader`, the offsets of the `P`
segment buffers are pairwise distinct and, for every block `k`, at most one
segment buffer satisfies `inRange(k, s)`. -/
theorem segment_offsets_distinct (fileok : Bool) (blocks blocksize bps bcsize : Nat)
    (l : Log) (b : Nat) (acts : List Action) (c : Log)
    (h0 : NewLog fileok blocks blocksize bps bcsize = .ok (l, b))
    (hsize : l.numsegments * l.segmentsize < U64)
    (hrun : run l acts = .ok c)
    (hready : c.segmentbuffers - 1 ≤ acts.count .reader) :
    c.segments.length = c.segmentbuffers
      ∧ (∀ i j, i < c.segmentbuffers → j < c.segmentbuffers →
          (c.seg i).offset = (c.seg j).offset → i = j)
      ∧ (∀ k i j, i < c.segmentbuffers → j < c.segmentbuffers →
          c.inRange k (c.seg i) = true → c.inRange k (c.seg j) = true → i = j) := by
  have hinv := run_inv acts (NewLog_inv fileok blocks blocksize bps bcsize l b h0 hsize) hrun
  have hn : c.segmentbuffers - 1 ≤ 0 + acts.count .reader := by omega
  refine ⟨hinv.len, fun i j hi hj h => offsets_injective hinv hn i j hi hj h, ?_⟩
  intro k i j hi hj hki hkj
  exact offsets_injective hinv hn i j hi hj (inRange_offset_eq hinv k i j hi hj hki hkj)

/-- Witness of C9 amended: three one-block segments, the reader has prepared
the two queued buffers. -/
theorem segment_offsets_distinct_witness :
    NewLog true 3 1 1 4 = .ok (fresh3, 3)
      ∧ fresh3.numsegments * fresh3.segmentsize < U64
      ∧ run fresh3 (readerActs 2) = .ok ready3
      ∧ ready3.segmentbuffers - 1 ≤ List.count .reader (readerActs 2)
      ∧ ready3.segments.length = ready3.segmentbuffers
      ∧ (∀ i j, i < ready3.segmentbuffers → j < ready3.segmentbuffers →
          (ready3.seg i).offset = (ready3.seg j).offset → i = j)
      ∧ (∀ k i j, i < ready3.segmentbuffers → j < ready3.segmentbuffers →
          ready3.inRange k (ready3.seg i) = true → ready3.inRange k (ready3.seg j) = true →
          i = j) :=
  ⟨by decide, by decide, by decide, by decide,
    segment_offsets_distinct true 3 1 1 4 fresh3 3 (readerActs 2) ready3
      (by decide) (by decide) (by decide) (by decide)⟩

/-- C10, counterexample: on two one-block segments, after one iteration of
the reader the cursor is 1 while the current segment, the first buffer,
has offset 0; on three segments, after `PUT(1)` the current segment has
offset 1 and the cursor is 2.  In both states the dispatcher is idle and the
reader holds no buffer.  Inside the iteration, after the reader has moved
the cursor and before it sends the buffer, the cursor is 1 and the current
segment has offset 0 with no buffer on `chavailable`. -/
theorem cursor_ahead_of_current :
    logSizeOf (exec 2 1 1 4 [.reader, .readerSend]) = some 2
      ∧ cursorOf (exec 2 1 1 4 [.reader, .readerSend]) = some 1
      ∧ currentOffsetOf (exec 2 1 1 4 [.reader, .readerSend]) = some 0
      ∧ preparedOf (exec 2 1 1 4 [.reader, .readerSend]) = some none
      ∧ logSizeOf (exec 3 1 1 4 (readerActs 2 ++ putActs 1 [5] 1)) = some 3
      ∧ cursorOf (exec 3 1 1 4 (readerActs 2 ++ putActs 1 [5] 1)) = some 2
      ∧ currentOffsetOf (exec 3 1 1 4 (readerActs 2 ++ putActs 1 [5] 1)) = some 1
      ∧ preparedOf (exec 3 1 1 4 (readerActs 2 ++ putActs 1 [5] 1)) = some none
      ∧ cursorOf (exec 2 1 1 4 [.reader]) = some 1
      ∧ currentOffsetOf (exec 2 1 1 4 [.reader]) = some 0
      ∧ availableOf (exec 2 1 1 4 [.reader]) = some []
      ∧ preparedOf (exec 2 1 1 4 [.reader]) = some (some 1) := by
  decide

/-- C10, amended: in every state reached from the state `NewLog` constructs
(the size of the log in bytes not overflowing `uint64`) `Log.segment`
designates one of the `P` segment buffers; and whenever the dispatcher does
not stand between the two halves of `sync` and the reader does not stand
inside an iteration of its loop (between its receive from `chreader` and
its send on `chavailable`), the offset of that buffer stands behind the
cursor by one segment for every buffer queued on `chavailable`:
`(offset + len(chavailable) · segmentsize) mod size = Log.current`, with
`segmentsize` and `size` the fields of the log (`M·B` and `N·B`). -/
theorem current_segment_behind_cursor (fileok : Bool)
    (blocks blocksize bps bcsize : Nat)
    (l : Log) (b : Nat) (acts : List Action) (c : Log)
    (h0 : NewLog fileok blocks blocksize bps bcsize = .ok (l, b))
    (hsize : l.numsegments * l.segmentsize < U64)
    (hrun : run l acts = .ok c) :
    c.segment < c.segments.length
      ∧ ((∀ m, c.pc ≠ .inSync m) → c.prepared = none →
          ((c.seg c.segment).offset + c.chavailable.length * c.segmentsize) % c.size
            = c.current) := by
  have hinv := run_inv acts (NewLog_inv fileok blocks blocksize bps bcsize l b h0 hsize) hrun
  refine ⟨hinv.len ▸ hinv.cur_lt, ?_⟩
  intro hpc hreader
  have h := current_offset hinv hpc
  rw [hreader] at h
  simp only [Option.toList_none, List.append_nil] at h
  exact h

/-- Witness of C10 amended: three one-block segments, `PUT(1)` after the
reader has prepared the two queued buffers; the current segment has offset
1, one buffer waits on `chavailable`, the cursor is 2. -/
theorem current_segment_behind_cursor_witness :
    NewLog true 3 1 1 4 = .ok (fresh3, 3)
      ∧ fresh3.numsegments * fresh3.segmentsize < U64
      ∧ run fresh3 (readerActs 2 ++ putActs 1 [5] 1) = .ok afterPut3
      ∧ (∀ m, afterPut3.pc ≠ .inSync m)
      ∧ afterPut3.prepared = none
      ∧ afterPut3.segment < afterPut3.segments.length
      ∧ ((∀ m, afterPut3.pc ≠ .inSync m) → afterPut3.prepared = none →
          ((afterPut3.seg afterPut3.segment).offset
              + afterPut3.chavailable.length * afterPut3.segmentsize) % afterPut3.size
            = afterPut3.current) :=
  ⟨by decide, by decide, by decide, (fun m h => by cases h), rfl,
    current_segment_behind_cursor true 3 1 1 4 fresh3 3
      (readerActs 2 ++ putActs 1 [5] 1) afterPut3
      (by decide) (by decide) (by decide)⟩

/-! ## The grid of segment offsets -/

/-- Under the invariant the offsets of the segment buffers and the cursor
are whole multiples of the segment size, below the size of the log. -/
theorem grid_of_inv {n : Nat} {c : Log} (hinv : Inv n c) :
    (∀ i, i < c.segmentbuffers →
        c.segmentsize ∣ (c.seg i).offset ∧ (c.seg i).offset < c.size)
      ∧ c.segmentsize ∣ c.current ∧ c.current < c.size := by
  have hSpos : 0 < c.numsegments := lt_of_lt_of_le hinv.bufs_pos hinv.bufs_le
  refine ⟨?_, ?_, ?_⟩
  · intro i hi
    obtain ⟨q, hq, hqo⟩ := offset_form hinv i hi
    rw [hqo, hinv.size_eq]
    exact ⟨Dvd.intro_left q rfl, Nat.mul_lt_mul_of_pos_right hq hinv.seg_pos⟩
  · rw [hinv.cursor]
    exact Dvd.intro_left _ rfl
  · rw [hinv.cursor, hinv.size_eq]
    exact Nat.mul_lt_mul_of_pos_right (Nat.mod_lt _ hSpos) hinv.seg_pos

/-- Under the invariant the sum the reader computes does not overflow. -/
theorem reader_cursor {n : Nat} {c c1 : Log} (hinv : Inv n c) (h : c.reader = .ok c1) :
    c1.current = (c.current + c.segmentsize) % c.size := by
  obtain ⟨i, rest, buf, _, _, _, rfl⟩ := reader_ok c c1 h
  have hSpos : 0 < c.numsegments := lt_of_lt_of_le hinv.bufs_pos hinv.bufs_le
  have hlt : c.numsegments * c.segmentsize < U64 := hinv.size_eq ▸ hinv.size_lt
  have h1 : c.current + c.segmentsize = (n % c.numsegments + 1) * c.segmentsize := by
    rw [hinv.cursor]; ring
  have h2 : (n % c.numsegments + 1) * c.segmentsize ≤ c.numsegments * c.segmentsize :=
    Nat.mul_le_mul_right _ (Nat.mod_lt n hSpos)
  have h3 : (c.current + c.segmentsize) % U64 = c.current + c.segmentsize :=
    Nat.mod_eq_of_lt (by rw [h1]; exact lt_of_le_of_lt h2 hlt)
  show ((c.current + c.segmentsize) % U64) % c.size = _
  rw [h3]

set_option maxRecDepth 100000 in
/-- C11, counterexample: 6148914691236517206 blocks of 3 bytes, one block to
the segment.  The size of the log, `6148914691236517206 · 3`, overflows
`uint64` to 2, which `NewLog` accepts; the first iteration of the reader
sets the cursor and the offset of the second buffer to `(0 + 3) mod 2 = 1`,
which is not a multiple of the segment size 3. -/
theorem cursor_off_grid :
    logSizeOf (exec 6148914691236517206 3 1 4 [.reader, .readerSend]) = some 2
      ∧ segmentSizeOf (exec 6148914691236517206 3 1 4 [.reader, .readerSend]) = some 3
      ∧ cursorOf (exec 6148914691236517206 3 1 4 [.reader, .readerSend]) = some 1
      ∧ offsetsOf (exec 6148914691236517206 3 1 4 [.reader, .readerSend])
          = some (0 :: 1 :: List.replicate 30 0) := by decide

/-- C11, amended: in every state reached from the state `NewLog` constructs
for a log whose size in bytes `numsegments · segmentsize` does not overflow
`uint64`, the offset of every segment buffer and the cursor are multiples of
the segment size `M·B` and strictly less than the size of the log `N·B`;
an iteration of the reader replaces the cursor by
`(cursor + M·B) mod (N·B)` and the state it leaves has the same property. -/
theorem offsets_on_grid (fileok : Bool) (blocks blocksize bps bcsize : Nat)
    (l : Log) (b : Nat) (acts : List Action) (c : Log)
    (h0 : NewLog fileok blocks blocksize bps bcsize = .ok (l, b))
    (hsize : l.numsegments * l.segmentsize < U64)
    (hrun : run l acts = .ok c) :
    c.segments.length = c.segmentbuffers
      ∧ (∀ i, i < c.segmentbuffers →
          c.segmentsize ∣ (c.seg i).offset ∧ (c.seg i).offset < c.size)
      ∧ c.segmentsize ∣ c.current ∧ c.current < c.size
      ∧ (∀ c1, step c .reader = .ok c1 →
          c1.current = (c.current + c.segmentsize) % c.size
            ∧ c1.segmentsize = c.segmentsize ∧ c1.size = c.size
            ∧ c1.segments.length = c1.segmentbuffers
            ∧ (∀ i, i < c1.segmentbuffers →
                c1.segmentsize ∣ (c1.seg i).offset ∧ (c1.seg i).offset < c1.size)
            ∧ c1.segmentsize ∣ c1.current ∧ c1.current < c1.size) := by
  have hinv := run_inv acts (NewLog_inv fileok blocks blocksize bps bcsize l b h0 hsize) hrun
  obtain ⟨g1, g2, g3⟩ := grid_of_inv hinv
  refine ⟨hinv.len, g1, g2, g3, ?_⟩
  intro c1 h1
  have hr : c.reader = .ok c1 := h1
  have hinv1 := reader_inv hinv hr
  obtain ⟨k1, k2, k3⟩ := grid_of_inv hinv1
  obtain ⟨i, rest, buf, _, _, _, hc1⟩ := reader_ok c c1 hr
  refine ⟨reader_cursor hinv hr, ?_, ?_, hinv1.len, k1, k2, k3⟩
  · rw [hc1]
  · rw [hc1]

/-- Witness of C11 amended: three one-block segments, after the reader has
prepared the two queued buffers. -/
theorem offsets_on_grid_witness :
    NewLog true 3 1 1 4 = .ok (fresh3, 3)
      ∧ fresh3.numsegments * fresh3.segmentsize < U64
      ∧ run fresh3 (readerActs 2) = .ok ready3
      ∧ ready3.segments.length = ready3.segmentbuffers
      ∧ (∀ i, i < ready3.segmentbuffers →
          ready3.segmentsize ∣ (ready3.seg i).offset ∧ (ready3.seg i).offset < ready3.size)
      ∧ ready3.segmentsize ∣ ready3.current ∧ ready3.current < ready3.size
      ∧ (∀ c1, step ready3 .reader = .ok c1 →
          c1.current = (ready3.current + ready3.segmentsize) % ready3.size
            ∧ c1.segmentsize = ready3.segmentsize ∧ c1.size = ready3.size
            ∧ c1.segments.length = c1.segmentbuffers
            ∧ (∀ i, i < c1.segmentbuffers →
                c1.segmentsize ∣ (c1.seg i).offset ∧ (c1.seg i).offset < c1.size)
            ∧ c1.segmentsize ∣ c1.current ∧ c1.current < c1.size) :=
  ⟨by decide, by decide, by decide,
    offsets_on_grid true 3 1 1 4 fresh3 3 (readerActs 2) ready3
      (by decide) (by decide) (by decide)⟩


/-! ## What every action does to the state -/

/-- Writing a segment buffer back over itself changes nothing. -/
theorem set_seg_self (c : Log) (i : Nat) : c.segments.set i (c.seg i) = c.segments := by
  apply List.ext_getElem?
  intro j
  by_cases hij : i = j
  · subst hij
    by_cases hi : i < c.segments.length
    · rw [List.getElem?_set_self hi]
      simp [Log.seg, List.getElem?_eq_getElem hi]
    · rw [List.set_eq_of_length_le (Nat.le_of_not_lt hi)]
  · rw [List.getElem?_set_ne hij]

/-- The bytes a copy leaves are as many as the destination held. -/
theorem copy_length (dst src : List Nat) : (copy dst src).length = dst.length := by
  unfold copy
  rw [List.length_append, List.length_take, List.length_drop]
  omega

/-- A write to the log file never shortens it. -/
theorem fileWriteAt_length (fp p : List Nat) (off : Nat) :
    fp.length ≤ (fileWriteAt fp p off).length := by
  unfold fileWriteAt
  simp only [List.length_append, List.length_take, List.length_drop, List.length_replicate]
  omega

/-- What an iteration of the writer loop does when it is not blocked: it
takes the head of `chwriting`, writes it to the file if it is dirty, and
queues it on `chreader`; the bytes and the offset of the buffer stay. -/
theorem writer_ok (c c1 : Log) (h : c.writer = .ok c1) :
    ∃ i rest fp1 w, c.chwriting = i :: rest ∧ c.fp.length ≤ fp1.length ∧
      c1 = { c with
             fp := fp1
             segments := c.segments.set i
               { segmentbuf := (c.seg i).segmentbuf
                 offset := (c.seg i).offset
                 written := w }
             chwriting := rest
             chreader := c.chreader ++ [i] } := by
  unfold Log.writer at h
  cases hch : c.chwriting with
  | nil => rw [hch] at h; cases h
  | cons i rest =>
    rw [hch] at h
    simp only at h
    split_ifs at h with h1 h2
    · exact ⟨i, rest, _, false, rfl, fileWriteAt_length _ _ _, (Outcome.ok.inj h).symm⟩
    · refine ⟨i, rest, c.fp, (c.seg i).written, rfl, le_rfl, ?_⟩
      have hs : c.segments.set i
          { segmentbuf := (c.seg i).segmentbuf, offset := (c.seg i).offset,
            written := (c.seg i).written } = c.segments := set_seg_self c i
      rw [hs]
      exact (Outcome.ok.inj h).symm

/-- What the dispatcher does inside `put` when it is not blocked: at the
loop condition it sends the current segment on `chwriting`, or, the block
being covered, writes it into the current segment; inside `sync` it takes
the head of `chavailable` as the current segment. -/
theorem dispatch_ok (c c1 : Log) (h : c.dispatch = .ok c1) :
    (∃ msg, c.pc = .inPut msg ∧ c.inRange msg.BlockNum (c.seg c.segment) = false ∧
        c1 = { c with chwriting := c.chwriting ++ [c.segment], pc := .inSync msg })
      ∨ (∃ msg buf bc1, c.pc = .inPut msg ∧ c.inRange msg.BlockNum (c.seg c.segment) = true ∧
          buf.length = (c.seg c.segment).segmentbuf.length ∧
          c1 = { c with
                 bc := bc1
                 segments := c.segments.set c.segment
                   { segmentbuf := buf
                     offset := (c.seg c.segment).offset
                     written := true }
                 done := c.done ++ [msg]
                 pc := .idle })
      ∨ (∃ msg i rest, c.pc = .inSync msg ∧ c.chavailable = i :: rest ∧
          c1 = { c with segment := i, chavailable := rest, pc := .inPut msg }) := by
  unfold Log.dispatch at h
  cases hpc : c.pc with
  | idle => rw [hpc] at h; cases h
  | inPut msg =>
    rw [hpc] at h
    simp only [Log.put, Log.putWrite] at h
    split_ifs at h with h1 h2 h3
    · left
      refine ⟨msg, rfl, ?_, (Outcome.ok.inj h).symm⟩
      simpa using h1
    · right; left
      refine ⟨msg, _, _, rfl, ?_, ?_, (Outcome.ok.inj h).symm⟩
      · simpa using h1
      · simp only [WriteAt]
        rw [List.length_append, copy_length, List.length_take, List.length_drop]
        omega
  | inSync msg =>
    rw [hpc] at h
    simp only [Log.sync, hpc] at h
    cases hav : c.chavailable with
    | nil => rw [hav] at h; cases h
    | cons i rest =>
      rw [hav] at h
      right; right
      exact ⟨msg, i, rest, rfl, rfl, (Outcome.ok.inj h).symm⟩

/-- What an iteration of a `logread` worker does when it does not fail. -/
theorem logread_ok (c c1 : Log) (h : c.logread = .ok c1) :
    ∃ m rest bc1 d1, c.logreaders = m :: rest ∧
      c1 = { c with logreaders := rest, bc := bc1, done := d1 } := by
  unfold Log.logread at h
  cases hl : c.logreaders with
  | nil => rw [hl] at h; cases h
  | cons m rest =>
    rw [hl] at h
    simp only at h
    split_ifs at h
    exact ⟨m, rest, _, _, rfl, (Outcome.ok.inj h).symm⟩

/-- A `get` that is not blocked and does not fail touches the buffer cache,
the completed messages and `logreaders` only. -/
theorem get_ok (c c1 : Log) (msg : Message) (h : c.get msg = .ok c1) :
    ∃ bc1 d1 lr1, c1 = { c with bc := bc1, done := d1, logreaders := lr1 } := by
  unfold Log.get at h
  simp only at h
  split at h
  · exact ⟨_, _, c.logreaders, (Outcome.ok.inj h).symm⟩
  · split at h
    · split_ifs at h
      exact ⟨_, _, c.logreaders, (Outcome.ok.inj h).symm⟩
    · split_ifs at h
      exact ⟨_, c.done, _, (Outcome.ok.inj h).symm⟩

/-- What the dispatcher does with a message: a put that passes `Require`
brings it to the loop of `put`; a get runs to its end. -/
theorem server_ok (c c1 : Log) (msg : Message) (h : c.server msg = .ok c1) :
    c.pc = .idle ∧
      ((msg.BlockNum < c.blocks ∧ c1 = { c with pc := .inPut msg })
        ∨ (∃ bc1 d1 lr1, c1 = { c with bc := bc1, done := d1, logreaders := lr1 })) := by
  have hidle : c.pc = .idle := by
    unfold Log.server at h
    cases hpc : c.pc with
    | idle => rfl
    | inPut m => rw [hpc] at h; cases h
    | inSync m => rw [hpc] at h; cases h
  refine ⟨hidle, ?_⟩
  unfold Log.server at h
  rw [hidle] at h
  simp only at h
  cases hk : msg.kind with
  | MsgPut =>
    rw [hk] at h
    simp only at h
    split_ifs at h with h1
    exact Or.inl ⟨h1, (Outcome.ok.inj h).symm⟩
  | MsgGet =>
    rw [hk] at h
    exact Or.inr (get_ok c c1 msg h)


/-! ## The configuration in every reachable state -/

/-- The state `NewLog` returns has the configuration invariant, provided the
size of the log in bytes does not overflow. -/
theorem NewLog_cfg (fileok : Bool) (blocks blocksize bps bcsize : Nat) (l : Log) (b : Nat)
    (h : NewLog fileok blocks blocksize bps bcsize = .ok (l, b))
    (hsize : l.numsegments * l.segmentsize < U64) : Cfg l := by
  simp only [NewLog] at h
  generalize hss : (bps * blocksize) % U64 = ss at h
  generalize hS : blocks / (ss / blocksize) = S at h
  generalize hP : (if S < fsegmentbuffers then S else fsegmentbuffers) = P at h
  split_ifs at h with h1 h2 h3 h4 h5
  obtain ⟨rfl, rfl⟩ := Prod.mk.inj (Outcome.ok.inj h)
  simp only at hsize
  have hle : S * (ss / blocksize) ≤ S * ss := Nat.mul_le_mul_left _ (Nat.div_le_self _ _)
  refine ⟨?_, ?_, ?_⟩
  · exact Nat.mod_eq_of_lt (lt_of_le_of_lt hle hsize)
  · exact Nat.div_mul_le_self ss blocksize
  · intro msg hpc
    rcases hpc with hpc | hpc <;> cases hpc

/-- Every action keeps the configuration invariant. -/
theorem step_cfg {c c1 : Log} (a : Action) (hcfg : Cfg c) (h : step c a = .ok c1) :
    Cfg c1 := by
  cases a with
  | msg m =>
    obtain ⟨hidle, hc | ⟨bc1, d1, lr1, rfl⟩⟩ := server_ok c c1 m h
    · obtain ⟨hk, rfl⟩ := hc
      refine ⟨hcfg.blocks_eq, hcfg.fits, ?_⟩
      intro msg hpc
      rcases hpc with hpc | hpc
      · have : m = msg := Pc.inPut.inj hpc
        subst this
        exact hk
      · cases hpc
    · exact ⟨hcfg.blocks_eq, hcfg.fits, hcfg.require⟩
  | dispatch =>
    obtain ⟨msg, hpc, _, rfl⟩ | ⟨msg, buf, bc1, hpc, _, _, rfl⟩ | ⟨msg, i, rest, hpc, _, rfl⟩ :=
      dispatch_ok c c1 h
    · refine ⟨hcfg.blocks_eq, hcfg.fits, ?_⟩
      intro m hm
      rcases hm with hm | hm
      · cases hm
      · have : msg = m := Pc.inSync.inj hm
        subst this
        exact hcfg.require msg (Or.inl hpc)
    · refine ⟨hcfg.blocks_eq, hcfg.fits, ?_⟩
      intro m hm
      rcases hm with hm | hm <;> cases hm
    · refine ⟨hcfg.blocks_eq, hcfg.fits, ?_⟩
      intro m hm
      rcases hm with hm | hm
      · have : msg = m := Pc.inPut.inj hm
        subst this
        exact hcfg.require msg (Or.inr hpc)
      · cases hm
  | writer =>
    obtain ⟨i, rest, fp1, w, _, _, rfl⟩ := writer_ok c c1 h
    exact ⟨hcfg.blocks_eq, hcfg.fits, hcfg.require⟩
  | reader =>
    obtain ⟨i, rest, buf, _, _, _, rfl⟩ := reader_ok c c1 h
    exact ⟨hcfg.blocks_eq, hcfg.fits, hcfg.require⟩
  | readerSend =>
    obtain ⟨i, _, _, rfl⟩ := readerSend_ok c c1 h
    exact ⟨hcfg.blocks_eq, hcfg.fits, hcfg.require⟩
  | logread =>
    obtain ⟨m, rest, bc1, d1, _, rfl⟩ := logread_ok c c1 h
    exact ⟨hcfg.blocks_eq, hcfg.fits, hcfg.require⟩

/-- The configuration invariant along an execution. -/
theorem run_cfg {c c1 : Log} (acts : List Action) (hcfg : Cfg c)
    (h : run c acts = .ok c1) : Cfg c1 := by
  induction acts generalizing c with
  | nil =>
    have hc : c = c1 := Outcome.ok.inj h
    subst hc
    exact hcfg
  | cons a rest ih =>
    unfold run at h
    cases hs : step c a with
    | ok c2 =>
      rw [hs] at h
      exact ih (step_cfg a hcfg hs) h
    | fault f => rw [hs] at h; cases h
    | blocked => rw [hs] at h; cases h

/-- An execution in two parts. -/
theorem run_append (c : Log) (xs ys : List Action) :
    run c (xs ++ ys) = match run c xs with
      | .ok c1 => run c1 ys
      | .fault f => .fault f
      | .blocked => .blocked := by
  induction xs generalizing c with
  | nil => rfl
  | cons a rest ih =>
    simp only [List.cons_append, run]
    cases hs : step c a with
    | ok c2 => exact ih c2
    | fault f => rfl
    | blocked => rfl

/-! ## The distance of the current segment to the segment of a block -/

/-- The distance forward around a ring of `S` places from `q` to `t`. -/
theorem dist_eq (S t q : Nat) (ht : t < S) (hq : q < S) :
    (t + S - q) % S = if q ≤ t then t - q else t + S - q := by
  split_ifs with h
  · have h1 : t + S - q = (t - q) + S := by omega
    rw [h1, Nat.add_mod_right, Nat.mod_eq_of_lt (by omega)]
  · rw [Nat.mod_eq_of_lt (by omega)]

theorem dist_lt (S t q : Nat) (hS : 0 < S) : (t + S - q) % S < S :=
  Nat.mod_lt _ hS

theorem dist_zero_iff (S t q : Nat) (ht : t < S) (hq : q < S) :
    (t + S - q) % S = 0 ↔ q = t := by
  rw [dist_eq S t q ht hq]
  split_ifs with h <;> omega

/-- One place forward brings one place nearer. -/
theorem dist_succ (S t q : Nat) (ht : t < S) (hq : q < S) (hne : (t + S - q) % S ≠ 0) :
    (t + S - (q + 1) % S) % S + 1 = (t + S - q) % S := by
  have hqt : q ≠ t := fun h => hne ((dist_zero_iff S t q ht hq).mpr h)
  rw [dist_eq S t q ht hq]
  by_cases hlast : q + 1 = S
  · rw [hlast, Nat.mod_self, dist_eq S t 0 ht (by omega)]
    split_ifs <;> omega
  · have hq1 : q + 1 < S := by omega
    rw [Nat.mod_eq_of_lt hq1, dist_eq S t (q + 1) ht hq1]
    split_ifs <;> omega

/-- One segment forward on the grid of offsets. -/
theorem grid_succ (S ss x : Nat) : (x % S * ss + ss) % (S * ss) = (x + 1) % S * ss := by
  have h1 : x % S * ss + ss = (x % S + 1) * ss := by ring
  rw [h1, Nat.mul_mod_mul_right, Nat.mod_add_mod]

/-- The offset of a block of the log is computed without overflow and lies in
the log. -/
theorem offset_lt {n : Nat} {c : Log} (hinv : Inv n c) (hcfg : Cfg c) (k : Nat)
    (hk : k < c.blocks) : c.offset k = k * c.blocksize ∧ k * c.blocksize < c.size := by
  have hSpos : 0 < c.numsegments := lt_of_lt_of_le hinv.bufs_pos hinv.bufs_le
  have hlt : k * c.blocksize < c.size := by
    rw [hinv.size_eq]
    have hpos : 0 < c.numsegments * c.segmentsize := Nat.mul_pos hSpos hinv.seg_pos
    rcases Nat.eq_zero_or_pos c.blocksize with hb | hb
    · rw [hb, Nat.mul_zero]; exact hpos
    · have h1 : k + 1 ≤ c.numsegments * c.maxentries := by
        rw [← hcfg.blocks_eq]; exact hk
      have h2 : (k + 1) * c.blocksize ≤ c.numsegments * c.maxentries * c.blocksize :=
        Nat.mul_le_mul_right _ h1
      have h3 : c.numsegments * c.maxentries * c.blocksize
          ≤ c.numsegments * c.segmentsize := by
        rw [Nat.mul_assoc]
        exact Nat.mul_le_mul_left _ hcfg.fits
      have h4 : k * c.blocksize < (k + 1) * c.blocksize :=
        Nat.mul_lt_mul_of_pos_right (Nat.lt_succ_self k) hb
      omega
  refine ⟨?_, hlt⟩
  unfold Log.offset
  exact Nat.mod_eq_of_lt (lt_trans hlt hinv.size_lt)

/-- The segment of a block of the log is one of its segments. -/
theorem segmentOf_lt {n : Nat} {c : Log} (hinv : Inv n c) (hcfg : Cfg c) (k : Nat)
    (hk : k < c.blocks) : c.segmentOf k < c.numsegments := by
  obtain ⟨ho, hlt⟩ := offset_lt hinv hcfg k hk
  unfold Log.segmentOf
  rw [ho]
  have h1 : k * c.blocksize < c.segmentsize * c.numsegments := by
    rw [Nat.mul_comm c.segmentsize, ← hinv.size_eq]
    exact hlt
  exact Nat.div_lt_of_lt_mul h1

/-- A segment buffer on the grid covers a block exactly when it stands at
the segment of the block. -/
theorem inRange_iff {n : Nat} {c : Log} (hinv : Inv n c) (k : Nat) (s : IoSegment) (q : Nat)
    (hq : q < c.numsegments) (hs : s.offset = q * c.segmentsize) :
    c.inRange k s = true ↔ q = c.segmentOf k := by
  have hlt : c.numsegments * c.segmentsize < U64 := hinv.size_eq ▸ hinv.size_lt
  have h1 : q * c.segmentsize + c.segmentsize = (q + 1) * c.segmentsize := by ring
  have h2 : (q + 1) * c.segmentsize ≤ c.numsegments * c.segmentsize :=
    Nat.mul_le_mul_right _ hq
  have h3 : (q * c.segmentsize + c.segmentsize) % U64 = (q + 1) * c.segmentsize := by
    rw [h1, Nat.mod_eq_of_lt (lt_of_le_of_lt h2 hlt)]
  unfold Log.inRange Log.segmentOf
  simp only [Bool.and_eq_true, decide_eq_true_iff]
  rw [hs, h3]
  constructor
  · rintro ⟨ha, hb⟩
    have h5 : q ≤ c.offset k / c.segmentsize :=
      (Nat.le_div_iff_mul_le hinv.seg_pos).mpr ha
    have h6 : c.offset k / c.segmentsize < q + 1 :=
      (Nat.div_lt_iff_lt_mul hinv.seg_pos).mpr hb
    omega
  · intro hq1
    subst hq1
    exact ⟨Nat.div_mul_le_self _ _,
      (Nat.div_lt_iff_lt_mul hinv.seg_pos).mp (Nat.lt_succ_self _)⟩


/-! ## The loop of `put`: its condition and the next segment -/

/-- The current segment stands on the grid. -/
theorem current_form {n : Nat} {c : Log} (hinv : Inv n c) :
    ∃ q, q < c.numsegments ∧ (c.seg c.segment).offset = q * c.segmentsize :=
  offset_form hinv c.segment hinv.cur_lt

/-- The distance from a place of the grid to the segment of a block. -/
theorem syncsTo_grid {n : Nat} {c : Log} (hinv : Inv n c) (k q : Nat) :
    c.syncsTo k (q * c.segmentsize)
      = (c.segmentOf k + c.numsegments - q) % c.numsegments := by
  unfold Log.syncsTo
  rw [Nat.mul_div_cancel q hinv.seg_pos]

/-- Outside `sync`, the buffer the dispatcher will receive next stands one
segment after the current segment. -/
theorem nextOffset_eq {n : Nat} {c : Log} (hinv : Inv n c) (hpc : ∀ m, c.pc ≠ .inSync m) :
    c.nextOffset = ((c.seg c.segment).offset + c.segmentsize) % c.size := by
  have hSpos : 0 < c.numsegments := lt_of_lt_of_le hinv.bufs_pos hinv.bufs_le
  have hlt : c.numsegments * c.segmentsize < U64 := hinv.size_eq ▸ hinv.size_lt
  have hring := ring_outside_sync c hpc
  have hal := hinv.aligned
  have hlen := hinv.ring_len
  rw [hring] at hal hlen
  rw [Aligned_append] at hal
  have hoff : (c.seg c.segment).offset
      = expected c.segmentbuffers c.numsegments c.segmentsize
          (n + (c.chreader ++ c.chwriting).length) := hal.2.1
  have hfresh := hinv.fresh
  unfold Log.nextOffset
  cases hav : c.chavailable ++ c.prepared.toList with
  | nil =>
    rw [hav] at hlen
    simp only [List.length_append, List.length_singleton, List.length_nil] at hlen hoff
    unfold expected at hoff
    rw [if_pos (by omega)] at hoff
    have hidx : n + (c.chreader.length + c.chwriting.length) + 1 - c.segmentbuffers = n := by
      omega
    rw [hidx] at hoff
    simp only
    rw [hoff, hinv.size_eq, grid_succ, hinv.cursor]
    exact cursor_advance _ _ _ hSpos hlt
  | cons i rest =>
    have hnext : (c.seg i).offset
        = expected c.segmentbuffers c.numsegments c.segmentsize
            (n + (c.chreader ++ c.chwriting).length + 1) := by
      have h2 := hal.2.2
      rw [hav] at h2
      exact h2.1
    rw [hav] at hlen
    simp only [List.length_append, List.length_singleton, List.length_cons] at hlen hoff hnext
    unfold expected at hoff hnext
    rw [if_pos (by omega)] at hoff hnext
    simp only
    rw [hnext, hoff, hinv.size_eq, grid_succ]
    congr 2
    omega

/-- Inside `put` the distance of the current segment to the segment of the
block is less than the number of segments, it is zero exactly when the
current segment covers the block, and the buffer the dispatcher will
receive next stands one nearer. -/
theorem loop_facts {n : Nat} {c : Log} (hinv : Inv n c) (hcfg : Cfg c) (k : Nat)
    (hk : k < c.blocks) :
    c.syncsTo k (c.seg c.segment).offset < c.numsegments
      ∧ (c.inRange k (c.seg c.segment) = true ↔ c.syncsTo k (c.seg c.segment).offset = 0)
      ∧ ((∀ m, c.pc ≠ .inSync m) → c.syncsTo k (c.seg c.segment).offset ≠ 0 →
          c.syncsTo k c.nextOffset + 1 = c.syncsTo k (c.seg c.segment).offset) := by
  have hSpos : 0 < c.numsegments := lt_of_lt_of_le hinv.bufs_pos hinv.bufs_le
  obtain ⟨q, hq, hqo⟩ := current_form hinv
  have ht := segmentOf_lt hinv hcfg k hk
  rw [hqo, syncsTo_grid hinv]
  refine ⟨dist_lt _ _ _ hSpos, ?_, ?_⟩
  · rw [inRange_iff hinv k (c.seg c.segment) q hq hqo, dist_zero_iff _ _ _ ht hq]
  · intro hpc hne
    rw [nextOffset_eq hinv hpc, hqo, hinv.size_eq]
    have h1 : q * c.segmentsize = q % c.numsegments * c.segmentsize := by
      rw [Nat.mod_eq_of_lt hq]
    rw [h1, grid_succ, syncsTo_grid hinv]
    exact dist_succ _ _ _ ht hq hne

/-! ## The work left decreases with every action but a new message -/

theorem syncsTo_congr {c c1 : Log} (hS : c1.numsegments = c.numsegments)
    (hss : c1.segmentsize = c.segmentsize) (hbs : c1.blocksize = c.blocksize) (k o : Nat) :
    c1.syncsTo k o = c.syncsTo k o := by
  unfold Log.syncsTo Log.segmentOf Log.offset
  rw [hS, hss, hbs]

theorem nextOffset_congr {c c1 : Log}
    (hav : c1.chavailable ++ c1.prepared.toList = c.chavailable ++ c.prepared.toList)
    (hoff : ∀ j, (c1.seg j).offset = (c.seg j).offset) (hcur : c1.current = c.current)
    (hss : c1.segmentsize = c.segmentsize) (hsize : c1.size = c.size) :
    c1.nextOffset = c.nextOffset := by
  unfold Log.nextOffset
  rw [hav, hcur, hss, hsize]
  cases c.chavailable ++ c.prepared.toList with
  | nil => rfl
  | cons i rest => exact hoff i

/-- The dispatcher has as many steps left when its position, the offset of
the current segment and that of the next one are the same. -/
theorem dispatchLeft_congr {c c1 : Log} (hpc : c1.pc = c.pc)
    (hS : c1.numsegments = c.numsegments) (hss : c1.segmentsize = c.segmentsize)
    (hbs : c1.blocksize = c.blocksize)
    (hcur : (∀ m, c.pc ≠ .inSync m) →
      (c1.seg c1.segment).offset = (c.seg c.segment).offset)
    (hnext : ∀ m, c.pc = .inSync m → c1.nextOffset = c.nextOffset) :
    c1.dispatchLeft = c.dispatchLeft := by
  unfold Log.dispatchLeft
  rw [hpc]
  cases h : c.pc with
  | idle => rfl
  | inPut msg =>
    simp only
    rw [syncsTo_congr hS hss hbs, hcur (fun m hm => by rw [h] at hm; cases hm)]
  | inSync msg =>
    simp only
    rw [syncsTo_congr hS hss hbs, hnext msg h]

/-- The buffer at the head of `chreader` is neither the current segment nor
queued on `chavailable`. -/
theorem reader_head_fresh {n : Nat} {c : Log} (hinv : Inv n c) (i : Nat) (rest : List Nat)
    (hch : c.chreader = i :: rest) :
    (∀ h ∈ c.chavailable, i ≠ h) ∧ ((∀ m, c.pc ≠ .inSync m) → i ≠ c.segment)
      ∧ i < c.segments.length := by
  have hnd := hinv.nodup
  have hmem : i ∈ ring c := by simp [ring, hch]
  unfold ring at hnd
  rw [hch] at hnd
  simp only [List.cons_append] at hnd
  have hnot := (List.nodup_cons.mp hnd).1
  refine ⟨?_, ?_, ?_⟩
  · rintro h hh rfl
    exact hnot (by simp [hh])
  · intro hpc hseg
    apply hnot
    cases hp : c.pc with
    | idle => simp [hseg]
    | inPut m => simp [hseg]
    | inSync m => exact absurd hp (hpc m)
  · rw [hinv.len]
    exact hinv.ring_lt i hmem

/-- The reader preparing a buffer does not change the buffer the dispatcher
will receive next. -/
theorem reader_nextOffset {n : Nat} {c c1 : Log} (hinv : Inv n c)
    (h : c.reader = .ok c1) : c1.nextOffset = c.nextOffset := by
  obtain ⟨i, rest, buf, hch, _, hprep, rfl⟩ := reader_ok c c1 h
  obtain ⟨hfa, _, hi⟩ := reader_head_fresh hinv i rest hch
  unfold Log.nextOffset
  rw [hprep]
  cases hav : c.chavailable with
  | nil =>
    show ((c.segments.set i _).getD i _).offset = _
    rw [getD_set_self _ _ _ _ hi]
    rfl
  | cons j tl =>
    show ((c.segments.set i _).getD j _).offset = _
    rw [getD_set_ne _ _ _ _ _ (hfa j (by rw [hav]; exact List.mem_cons_self _ _))]
    rfl

/-- The reader preparing a buffer leaves the dispatcher as many steps. -/
theorem reader_dispatchLeft {n : Nat} {c c1 : Log} (hinv : Inv n c)
    (h : c.reader = .ok c1) : c1.dispatchLeft = c.dispatchLeft := by
  have hnext := reader_nextOffset hinv h
  obtain ⟨i, rest, buf, hch, _, hprep, rfl⟩ := reader_ok c c1 h
  obtain ⟨_, hfs, _⟩ := reader_head_fresh hinv i rest hch
  refine dispatchLeft_congr rfl rfl rfl rfl ?_ (fun _ _ => hnext)
  intro hpc
  show ((c.segments.set i _).getD c.segment _).offset = _
  rw [getD_set_ne _ _ _ _ _ (hfs hpc)]
  rfl

/-- The reader sending the buffer it has prepared does not change the buffer
the dispatcher will receive next. -/
theorem readerSend_nextOffset {c c1 : Log} (h : c.readerSend = .ok c1) :
    c1.nextOffset = c.nextOffset := by
  obtain ⟨i, hprep, _, rfl⟩ := readerSend_ok c c1 h
  refine nextOffset_congr ?_ (fun _ => rfl) rfl rfl rfl
  rw [hprep]
  simp

/-- The reader sending the buffer it has prepared leaves the dispatcher as
many steps. -/
theorem readerSend_dispatchLeft {c c1 : Log} (h : c.readerSend = .ok c1) :
    c1.dispatchLeft = c.dispatchLeft := by
  have hnext := readerSend_nextOffset h
  obtain ⟨i, hprep, _, rfl⟩ := readerSend_ok c c1 h
  exact dispatchLeft_congr rfl rfl rfl rfl (fun _ => rfl) (fun _ _ => hnext)

/-- An iteration of the writer loop leaves the dispatcher as many steps. -/
theorem writer_dispatchLeft {c c1 : Log} (h : c.writer = .ok c1) :
    c1.dispatchLeft = c.dispatchLeft := by
  obtain ⟨i, rest, fp1, w, _, _, rfl⟩ := writer_ok c c1 h
  have hoff : ∀ j, ((c.segments.set i
      { segmentbuf := (c.seg i).segmentbuf, offset := (c.seg i).offset, written := w }).getD j
        { segmentbuf := [], offset := 0, written := false }).offset = (c.seg j).offset :=
    fun j => getD_set_offset _ _ _ _ _ rfl
  refine dispatchLeft_congr rfl rfl rfl rfl (fun _ => hoff c.segment) ?_
  intro m _
  exact nextOffset_congr rfl hoff rfl rfl rfl

/-- A step of the dispatcher inside `put` leaves it one step less, and
queues at most one buffer on `chwriting`. -/
theorem dispatch_dispatchLeft {n : Nat} {c c1 : Log} (hinv : Inv n c) (hcfg : Cfg c)
    (h : c.dispatch = .ok c1) :
    c1.dispatchLeft + 1 = c.dispatchLeft
      ∧ c1.workLeft + 1 ≤ c.workLeft := by
  obtain ⟨msg, hpc, hr, rfl⟩ | ⟨msg, buf, bc1, hpc, hr, _, rfl⟩ | ⟨msg, i, rest, hpc, hav, rfl⟩ :=
    dispatch_ok c c1 h
  · have hk := hcfg.require msg (Or.inl hpc)
    obtain ⟨_, hexit, hnext⟩ := loop_facts hinv hcfg msg.BlockNum hk
    have hne : c.syncsTo msg.BlockNum (c.seg c.segment).offset ≠ 0 := by
      intro h0
      rw [hexit.mpr h0] at hr
      cases hr
    have hn := hnext (fun m hm => by rw [hpc] at hm; cases hm) hne
    have h1 : c.dispatchLeft = 2 * c.syncsTo msg.BlockNum (c.seg c.segment).offset + 1 := by
      unfold Log.dispatchLeft; rw [hpc]
    have h2 : Log.dispatchLeft
        { c with chwriting := c.chwriting ++ [c.segment], pc := .inSync msg }
        = 2 * c.syncsTo msg.BlockNum c.nextOffset + 2 := rfl
    refine ⟨by rw [h1, h2]; omega, ?_⟩
    unfold Log.workLeft
    rw [h2, h1]
    simp only [List.length_append, List.length_singleton]
    omega
  · have hk := hcfg.require msg (Or.inl hpc)
    obtain ⟨_, hexit, _⟩ := loop_facts hinv hcfg msg.BlockNum hk
    have h0 := hexit.mp hr
    have h1 : c.dispatchLeft = 1 := by
      unfold Log.dispatchLeft; rw [hpc]; simp only; rw [h0]
    have h2 : Log.dispatchLeft
        { c with
          bc := bc1
          segments := c.segments.set c.segment
            { segmentbuf := buf, offset := (c.seg c.segment).offset, written := true }
          done := c.done ++ [msg]
          pc := .idle } = 0 := rfl
    refine ⟨by rw [h1, h2], ?_⟩
    unfold Log.workLeft
    rw [h2, h1]
    simp only
    omega
  · have h1 : c.dispatchLeft = 2 * c.syncsTo msg.BlockNum (c.seg i).offset + 2 := by
      unfold Log.dispatchLeft Log.nextOffset; rw [hpc, hav]; rfl
    have h2 : Log.dispatchLeft
        { c with segment := i, chavailable := rest, pc := .inPut msg }
        = 2 * c.syncsTo msg.BlockNum (c.seg i).offset + 1 := rfl
    refine ⟨by rw [h1, h2], ?_⟩
    unfold Log.workLeft
    rw [h2, h1]
    simp only
    omega

/-- Every action but a new message lessens the work left; only the steps of
the dispatcher lessen the number of steps the dispatcher has left. -/
theorem step_work {n : Nat} {c c1 : Log} (a : Action) (hinv : Inv n c) (hcfg : Cfg c)
    (ha : ∀ m, a ≠ .msg m) (h : step c a = .ok c1) :
    c1.workLeft + 1 ≤ c.workLeft
      ∧ c1.dispatchLeft + (if a = .dispatch then 1 else 0) = c.dispatchLeft := by
  cases a with
  | msg m => exact absurd rfl (ha m)
  | dispatch =>
    obtain ⟨h1, h2⟩ := dispatch_dispatchLeft hinv hcfg h
    exact ⟨h2, by simpa using h1⟩
  | writer =>
    have hd := writer_dispatchLeft h
    refine ⟨?_, by simpa using hd⟩
    obtain ⟨i, rest, fp1, w, hch, _, hc1⟩ := writer_ok c c1 h
    unfold Log.workLeft
    rw [hd, hch, hc1]
    simp only [List.length_append, List.length_cons, List.length_nil]
    omega
  | reader =>
    have hd := reader_dispatchLeft hinv h
    refine ⟨?_, by simpa using hd⟩
    obtain ⟨i, rest, buf, hch, _, hprep, hc1⟩ := reader_ok c c1 h
    unfold Log.workLeft
    rw [hd, hch, hprep, hc1]
    simp only [List.length_cons, Option.toList_some, Option.toList_none, List.length_nil,
      List.length_singleton]
    omega
  | readerSend =>
    have hd := readerSend_dispatchLeft h
    refine ⟨?_, by simpa using hd⟩
    obtain ⟨i, hprep, _, hc1⟩ := readerSend_ok c c1 h
    unfold Log.workLeft
    rw [hd, hprep, hc1]
    simp only [Option.toList_some, Option.toList_none, List.length_nil,
      List.length_singleton]
    omega
  | logread =>
    obtain ⟨m, rest, bc1, d1, hl, rfl⟩ := logread_ok c c1 h
    have hd : Log.dispatchLeft { c with logreaders := rest, bc := bc1, done := d1 }
        = c.dispatchLeft := rfl
    refine ⟨?_, by simpa using hd⟩
    unfold Log.workLeft
    rw [hd, hl]
    simp only [List.length_cons]
    omega


/-! ## Executions without a new message -/

theorem run_cons (c : Log) (a : Action) (rest : List Action) :
    run c (a :: rest) = match step c a with
      | .ok c1 => run c1 rest
      | .fault f => .fault f
      | .blocked => .blocked := rfl

theorem run_nil (c : Log) : run c [] = .ok c := rfl

/-- Along an execution without a new message the work left decreases by at
least the number of actions, and the dispatcher's steps left by the number
of its steps. -/
theorem run_work {n : Nat} {c c2 : Log} (sched : List Action) (hinv : Inv n c) (hcfg : Cfg c)
    (hs : ∀ a ∈ sched, ∀ m, a ≠ .msg m) (h : run c sched = .ok c2) :
    sched.length + c2.workLeft ≤ c.workLeft
      ∧ c2.dispatchLeft + sched.count .dispatch = c.dispatchLeft := by
  induction sched generalizing n c with
  | nil =>
    have hc : c = c2 := Outcome.ok.inj h
    subst hc
    simp
  | cons a rest ih =>
    unfold run at h
    cases hst : step c a with
    | ok c1 =>
      rw [hst] at h
      obtain ⟨h1, h2⟩ := step_work a hinv hcfg (hs a (List.mem_cons_self _ _)) hst
      obtain ⟨h3, h4⟩ := ih (step_inv a hinv hst) (step_cfg a hcfg hst)
        (fun x hx => hs x (List.mem_cons_of_mem _ hx)) h
      refine ⟨by simp only [List.length_cons]; omega, ?_⟩
      rw [List.count_cons]
      by_cases ha : a = .dispatch
      · subst ha
        simp only [if_true, beq_self_eq_true] at h2 ⊢
        omega
      · have hb : (a == Action.dispatch) = false := by simpa using ha
        rw [if_neg ha] at h2
        rw [hb]
        simp only [Bool.false_eq_true, if_false]
        omega
    | fault f => rw [hst] at h; cases h
    | blocked => rw [hst] at h; cases h

/-- No action changes the sizes of the log. -/
theorem step_const {c c1 : Log} (a : Action) (h : step c a = .ok c1) :
    c1.numsegments = c.numsegments ∧ c1.segmentsize = c.segmentsize
      ∧ c1.blocksize = c.blocksize ∧ c1.size = c.size ∧ c1.blocks = c.blocks
      ∧ c1.segmentbuffers = c.segmentbuffers := by
  cases a with
  | msg m =>
    obtain ⟨_, ⟨_, rfl⟩ | ⟨bc1, d1, lr1, rfl⟩⟩ := server_ok c c1 m h
    · exact ⟨rfl, rfl, rfl, rfl, rfl, rfl⟩
    · exact ⟨rfl, rfl, rfl, rfl, rfl, rfl⟩
  | dispatch =>
    obtain ⟨msg, _, _, rfl⟩ | ⟨msg, buf, bc1, _, _, _, rfl⟩ | ⟨msg, i, rest, _, _, rfl⟩ :=
      dispatch_ok c c1 h
    · exact ⟨rfl, rfl, rfl, rfl, rfl, rfl⟩
    · exact ⟨rfl, rfl, rfl, rfl, rfl, rfl⟩
    · exact ⟨rfl, rfl, rfl, rfl, rfl, rfl⟩
  | writer =>
    obtain ⟨i, rest, fp1, w, _, _, rfl⟩ := writer_ok c c1 h
    exact ⟨rfl, rfl, rfl, rfl, rfl, rfl⟩
  | reader =>
    obtain ⟨i, rest, buf, _, _, _, rfl⟩ := reader_ok c c1 h
    exact ⟨rfl, rfl, rfl, rfl, rfl, rfl⟩
  | readerSend =>
    obtain ⟨i, _, _, rfl⟩ := readerSend_ok c c1 h
    exact ⟨rfl, rfl, rfl, rfl, rfl, rfl⟩
  | logread =>
    obtain ⟨m, rest, bc1, d1, _, rfl⟩ := logread_ok c c1 h
    exact ⟨rfl, rfl, rfl, rfl, rfl, rfl⟩

/-- No execution changes the sizes of the log. -/
theorem run_const {c c2 : Log} (acts : List Action) (h : run c acts = .ok c2) :
    c2.numsegments = c.numsegments ∧ c2.segmentsize = c.segmentsize
      ∧ c2.blocksize = c.blocksize ∧ c2.size = c.size ∧ c2.blocks = c.blocks
      ∧ c2.segmentbuffers = c.segmentbuffers := by
  induction acts generalizing c with
  | nil =>
    have hc : c = c2 := Outcome.ok.inj h
    subst hc
    exact ⟨rfl, rfl, rfl, rfl, rfl, rfl⟩
  | cons a rest ih =>
    unfold run at h
    cases hst : step c a with
    | ok c1 =>
      rw [hst] at h
      obtain ⟨a1, a2, a3, a4, a5, a6⟩ := step_const a hst
      obtain ⟨b1, b2, b3, b4, b5, b6⟩ := ih h
      exact ⟨b1.trans a1, b2.trans a2, b3.trans a3, b4.trans a4, b5.trans a5, b6.trans a6⟩
    | fault f => rw [hst] at h; cases h
    | blocked => rw [hst] at h; cases h

/-- The writer, the reader and the `logread` workers leave the dispatcher
where it stands and do not change the buffer it will receive next. -/
theorem step_keeps_next {n : Nat} {c c1 : Log} (a : Action) (hinv : Inv n c)
    (ha : a = .writer ∨ a = .reader ∨ a = .readerSend ∨ a = .logread)
    (h : step c a = .ok c1) :
    c1.pc = c.pc ∧ c1.nextOffset = c.nextOffset := by
  rcases ha with rfl | rfl | rfl | rfl
  · obtain ⟨i, rest, fp1, w, _, _, rfl⟩ := writer_ok c c1 h
    exact ⟨rfl, nextOffset_congr rfl (fun j => getD_set_offset _ _ _ _ _ rfl) rfl rfl rfl⟩
  · have hnext := reader_nextOffset hinv h
    obtain ⟨i, rest, buf, hch, _, _, rfl⟩ := reader_ok c c1 h
    exact ⟨rfl, hnext⟩
  · have hnext := readerSend_nextOffset h
    obtain ⟨i, _, _, rfl⟩ := readerSend_ok c c1 h
    exact ⟨rfl, hnext⟩
  · obtain ⟨m, rest, bc1, d1, _, rfl⟩ := logread_ok c c1 h
    exact ⟨rfl, rfl⟩

/-- The same along an execution of the writer, the reader and the `logread`
workers. -/
theorem run_keeps_next {n : Nat} {c c2 : Log} (others : List Action) (hinv : Inv n c)
    (ho : ∀ a ∈ others, a = .writer ∨ a = .reader ∨ a = .readerSend ∨ a = .logread)
    (h : run c others = .ok c2) :
    c2.pc = c.pc ∧ c2.nextOffset = c.nextOffset
      ∧ ∃ n2, Inv n2 c2 := by
  induction others generalizing n c with
  | nil =>
    have hc : c = c2 := Outcome.ok.inj h
    subst hc
    exact ⟨rfl, rfl, n, hinv⟩
  | cons a rest ih =>
    unfold run at h
    cases hst : step c a with
    | ok c1 =>
      rw [hst] at h
      obtain ⟨h1, h2⟩ := step_keeps_next a hinv (ho a (List.mem_cons_self _ _)) hst
      obtain ⟨h3, h4, h5⟩ := ih (step_inv a hinv hst)
        (fun x hx => ho x (List.mem_cons_of_mem _ hx)) h
      exact ⟨h3.trans h1, h4.trans h2, h5⟩
    | fault f => rw [hst] at h; cases h
    | blocked => rw [hst] at h; cases h

/-- One sync, whatever the writer, the reader and the `logread` workers do
in between: the current segment moves one segment forward around the log
and stands one sync nearer to the block. -/
theorem sync_moves_one {n : Nat} {c c2 : Log} (msg : Message) (others : List Action)
    (hinv : Inv n c) (hcfg : Cfg c) (hpc : c.pc = .inPut msg)
    (hne : c.syncsTo msg.BlockNum (c.seg c.segment).offset ≠ 0)
    (ho : ∀ a ∈ others, a = .writer ∨ a = .reader ∨ a = .readerSend ∨ a = .logread)
    (h : run c (.dispatch :: others ++ [.dispatch]) = .ok c2) :
    c2.pc = .inPut msg
      ∧ (c2.seg c2.segment).offset = ((c.seg c.segment).offset + c.segmentsize) % c.size
      ∧ c2.syncsTo msg.BlockNum (c2.seg c2.segment).offset + 1
          = c.syncsTo msg.BlockNum (c.seg c.segment).offset := by
  have hk := hcfg.require msg (Or.inl hpc)
  have hnotsync : ∀ m, c.pc ≠ .inSync m := fun m hm => by rw [hpc] at hm; cases hm
  obtain ⟨_, hexit, hnext⟩ := loop_facts hinv hcfg msg.BlockNum hk
  have hn := hnext hnotsync hne
  have hno := nextOffset_eq hinv hnotsync
  rw [List.cons_append, run_cons] at h
  cases hst : step c .dispatch with
  | fault f => rw [hst] at h; cases h
  | blocked => rw [hst] at h; cases h
  | ok c1 =>
    rw [hst] at h
    simp only at h
    have hinv1 := dispatch_inv hinv hst
    have hc1 : c1.pc = .inSync msg ∧ c1.nextOffset = c.nextOffset
        ∧ c1.numsegments = c.numsegments ∧ c1.segmentsize = c.segmentsize
        ∧ c1.blocksize = c.blocksize := by
      obtain ⟨m, hm, hr, rfl⟩ | ⟨m, buf, bc1, hm, hr, _, rfl⟩ | ⟨m, i, rest, hm, _, rfl⟩ :=
        dispatch_ok c c1 hst
      · rw [hpc] at hm
        have hmm : msg = m := Pc.inPut.inj hm
        subst hmm
        exact ⟨rfl, rfl, rfl, rfl, rfl⟩
      · rw [hpc] at hm
        have hmm : msg = m := Pc.inPut.inj hm
        subst hmm
        exact absurd (hexit.mp hr) hne
      · rw [hpc] at hm; cases hm
    obtain ⟨hpc1, hnx1, hS1, hss1, hbs1⟩ := hc1
    rw [run_append] at h
    cases hmid : run c1 others with
    | fault f => rw [hmid] at h; cases h
    | blocked => rw [hmid] at h; cases h
    | ok c3 =>
      rw [hmid] at h
      simp only at h
      rw [run_cons] at h
      obtain ⟨hpc3, hnx3, n3, hinv3⟩ := run_keeps_next others hinv1 ho hmid
      cases hlast : step c3 .dispatch with
      | fault f => rw [hlast] at h; cases h
      | blocked => rw [hlast] at h; cases h
      | ok c4 =>
        rw [hlast] at h
        simp only [run_nil] at h
        have hc4 : c4 = c2 := Outcome.ok.inj h
        subst hc4
        have hpc3a : c3.pc = .inSync msg := hpc3.trans hpc1
        obtain ⟨m, hm, _, _⟩ | ⟨m, buf, bc1, hm, _, _, _⟩ | ⟨m, i, rest, hm, hav, rfl⟩ :=
          dispatch_ok c3 c4 hlast
        · rw [hpc3a] at hm; cases hm
        · rw [hpc3a] at hm; cases hm
        · rw [hpc3a] at hm
          have hmm : msg = m := Pc.inSync.inj hm
          subst hmm
          have hoff : (c3.seg i).offset = c.nextOffset := by
            have : c3.nextOffset = (c3.seg i).offset := by
              unfold Log.nextOffset; rw [hav]; rfl
            rw [← this, hnx3, hnx1]
          have hconst := run_const others hmid
          refine ⟨rfl, ?_, ?_⟩
          · show (c3.seg i).offset = _
            rw [hoff, hno]
          · show Log.syncsTo _ msg.BlockNum (c3.seg i).offset + 1 = _
            rw [hoff, ← hn]
            congr 1
            exact syncsTo_congr (hconst.1.trans hS1) (hconst.2.1.trans hss1)
              (hconst.2.2.1.trans hbs1) _ _


/-! ## The loop of `put` reaches its exit -/

/-- Inside `put`, short of the exit of the loop, one of the dispatcher, the
reader and the writer can take a step; the step succeeds, or it is the
reader's and fails the check of the segment pre-read. -/
theorem progress {n : Nat} {c : Log} (msg : Message) (hinv : Inv n c)
    (hpc : c.pc = .inPut msg ∨ c.pc = .inSync msg)
    (hnot : ¬ (c.pc = .inPut msg ∧ c.inRange msg.BlockNum (c.seg c.segment) = true)) :
    ∃ a, (a = .dispatch ∨ a = .writer ∨ a = .reader ∨ a = .readerSend) ∧
      (step c a = .fault .checkSegmentRead
        ∨ ∃ c1, step c a = .ok c1 ∧ (c1.pc = .inPut msg ∨ c1.pc = .inSync msg)) := by
  have hlen := hinv.ring_len
  have hP := hinv.bufs_pos
  rcases hpc with hpc | hpc
  · have hr : c.inRange msg.BlockNum (c.seg c.segment) = false := by
      cases hb : c.inRange msg.BlockNum (c.seg c.segment) with
      | false => rfl
      | true => exact absurd ⟨hpc, hb⟩ hnot
    have hw : c.chwriting.length < c.segmentbuffers := by
      unfold ring at hlen
      rw [hpc] at hlen
      simp only [List.length_append, List.length_singleton] at hlen
      omega
    refine ⟨.dispatch, Or.inl rfl, Or.inr
      ⟨{ c with chwriting := c.chwriting ++ [c.segment], pc := .inSync msg }, ?_, Or.inr rfl⟩⟩
    show c.dispatch = _
    unfold Log.dispatch
    rw [hpc]
    simp only [Log.put, hr, Bool.not_false, if_true, hw]
  · cases hav : c.chavailable with
    | cons i rest =>
      refine ⟨.dispatch, Or.inl rfl, Or.inr
        ⟨{ c with segment := i, chavailable := rest, pc := .inPut msg }, ?_, Or.inl rfl⟩⟩
      show c.dispatch = _
      unfold Log.dispatch
      rw [hpc]
      simp only [Log.sync, hpc, hav]
    | nil =>
      cases hprep : c.prepared with
      | some i =>
        have hav0 : c.chavailable.length < c.segmentbuffers := by
          rw [hav]; exact hP
        refine ⟨.readerSend, Or.inr (Or.inr (Or.inr rfl)), Or.inr
          ⟨{ c with chavailable := c.chavailable ++ [i], prepared := none }, ?_, Or.inr hpc⟩⟩
        show c.readerSend = _
        unfold Log.readerSend
        rw [hprep]
        simp only [hav0, if_true]
      | none =>
        cases hch : c.chreader with
        | cons i rest =>
          refine ⟨.reader, Or.inr (Or.inr (Or.inl rfl)), ?_⟩
          have hsz : c.size ≠ 0 := by
            rw [hinv.size_eq]
            exact Nat.pos_iff_ne_zero.mp
              (Nat.mul_pos (lt_of_lt_of_le hinv.bufs_pos hinv.bufs_le) hinv.seg_pos)
          show c.reader = _ ∨ ∃ c1, c.reader = _ ∧ _
          unfold Log.reader
          rw [hprep]
          simp only
          rw [hch]
          simp only [hsz, if_false]
          split_ifs
          · exact Or.inl rfl
          · exact Or.inr ⟨_, rfl, Or.inr hpc⟩
          · exact Or.inr ⟨_, rfl, Or.inr hpc⟩
        | nil =>
          cases hwr : c.chwriting with
          | nil =>
            unfold ring at hlen
            rw [hpc, hav, hch, hwr, hprep] at hlen
            simp only [List.append_nil, List.length_nil, Option.toList_none] at hlen
            omega
          | cons i rest =>
            refine ⟨.writer, Or.inr (Or.inl rfl), Or.inr ?_⟩
            have hch0 : c.chreader.length < c.segmentbuffers := by
              rw [hch]; exact hP
            show ∃ c1, c.writer = _ ∧ _
            unfold Log.writer
            rw [hwr]
            simp only [hch0, if_true]
            split_ifs
            · exact ⟨_, rfl, Or.inr hpc⟩
            · exact ⟨_, rfl, Or.inr hpc⟩

/-- The reads succeed after a step if they did before. -/
theorem ReadsSucceed_step {c c1 : Log} (a : Action)
    (ha : a = .dispatch ∨ a = .writer ∨ a = .reader ∨ a = .readerSend) (hrs : ReadsSucceed c)
    (hst : step c a = .ok c1) : ReadsSucceed c1 := by
  intro sched hs hrun
  apply hrs (a :: sched)
  · intro x hx
    rcases List.mem_cons.mp hx with rfl | hx
    · exact ha
    · exact hs x hx
  · rw [run_cons, hst]
    exact hrun

/-- The reads succeeding, the dispatcher, the writer and the reader bring
the loop of `put` to its exit. -/
theorem loop_exits (msg : Message) :
    ∀ (w n : Nat) (c : Log), Inv n c → Cfg c → ReadsSucceed c → c.workLeft ≤ w →
      (c.pc = .inPut msg ∨ c.pc = .inSync msg) →
      ∃ sched c2,
        (∀ a ∈ sched, a = .dispatch ∨ a = .writer ∨ a = .reader ∨ a = .readerSend)
        ∧ run c sched = .ok c2 ∧ c2.pc = .inPut msg
        ∧ c2.inRange msg.BlockNum (c2.seg c2.segment) = true := by
  intro w
  induction w with
  | zero =>
    intro n c _ _ _ hw hpc
    exfalso
    unfold Log.workLeft Log.dispatchLeft at hw
    rcases hpc with hpc | hpc <;> rw [hpc] at hw <;> simp only at hw <;> omega
  | succ w ih =>
    intro n c hinv hcfg hrs hw hpc
    by_cases hexit : c.pc = .inPut msg ∧ c.inRange msg.BlockNum (c.seg c.segment) = true
    · exact ⟨[], c, (fun a ha => by cases ha), rfl, hexit.1, hexit.2⟩
    · obtain ⟨a, ha, hfault | ⟨c1, hst, hpc1⟩⟩ := progress msg hinv hpc hexit
      · exfalso
        apply hrs [a]
        · intro x hx
          rw [List.mem_singleton.mp hx]
          exact ha
        · rw [run_cons, hfault]
      · have hnomsg : ∀ m, a ≠ .msg m := by
          intro m hm
          rcases ha with h | h | h | h <;> rw [h] at hm <;> cases hm
        obtain ⟨hwork, _⟩ := step_work a hinv hcfg hnomsg hst
        obtain ⟨sched, c2, hs, hrun, hp2, hr2⟩ :=
          ih _ c1 (step_inv a hinv hst) (step_cfg a hcfg hst) (ReadsSucceed_step a ha hrs hst)
            (by omega) hpc1
        refine ⟨a :: sched, c2, ?_, ?_, hp2, hr2⟩
        · intro x hx
          rcases List.mem_cons.mp hx with rfl | hx
          · exact ha
          · exact hs x hx
        · rw [run_cons, hst]
          exact hrun


/-! ## A log file that holds the whole log -/

/-- No segment buffer is longer than a segment. -/
theorem seg_len_le (c : Log) (hl : ∀ s ∈ c.segments, s.segmentbuf.length ≤ c.segmentsize)
    (i : Nat) : (c.seg i).segmentbuf.length ≤ c.segmentsize := by
  unfold Log.seg
  rw [List.getD_eq_getElem?_getD]
  cases h : c.segments[i]? with
  | none => exact Nat.zero_le _
  | some s => exact hl s (List.getElem?_mem h)

/-- Replacing a buffer by one no longer than a segment keeps all buffers no
longer than a segment. -/
theorem set_len_le (c : Log) (hl : ∀ s ∈ c.segments, s.segmentbuf.length ≤ c.segmentsize)
    (i : Nat) (s1 : IoSegment) (h1 : s1.segmentbuf.length ≤ c.segmentsize) :
    ∀ s ∈ c.segments.set i s1, s.segmentbuf.length ≤ c.segmentsize := by
  intro s hs
  rcases List.mem_or_eq_of_mem_set hs with h | h
  · exact hl s h
  · rw [h]; exact h1

/-- With the whole log in the file the pre-read of the reader is not short,
and the reader preparing a buffer leaves the file and the lengths of the
buffers as they are. -/
theorem reader_covered {n : Nat} {c : Log} (hinv : Inv n c) (hcov : Covered c) :
    c.reader ≠ .fault .checkSegmentRead ∧ ∀ c1, c.reader = .ok c1 → Covered c1 := by
  have hSpos : 0 < c.numsegments := lt_of_lt_of_le hinv.bufs_pos hinv.bufs_le
  have hlt : c.numsegments * c.segmentsize < U64 := hinv.size_eq ▸ hinv.size_lt
  have hcur : ((c.current + c.segmentsize) % U64) % c.size
      = (n + 1) % c.numsegments * c.segmentsize := by
    rw [hinv.cursor, hinv.size_eq]
    exact cursor_advance _ _ _ hSpos hlt
  have hroom : ((c.current + c.segmentsize) % U64) % c.size + c.segmentsize ≤ c.fp.length := by
    rw [hcur]
    have h1 : (n + 1) % c.numsegments * c.segmentsize + c.segmentsize
        = ((n + 1) % c.numsegments + 1) * c.segmentsize := by ring
    have h2 : ((n + 1) % c.numsegments + 1) * c.segmentsize
        ≤ c.numsegments * c.segmentsize :=
      Nat.mul_le_mul_right _ (Nat.mod_lt _ hSpos)
    have h3 := hcov.1
    rw [hinv.size_eq] at h3
    omega
  constructor
  · intro h
    unfold Log.reader at h
    cases hp : c.prepared with
    | some j => rw [hp] at h; cases h
    | none =>
      rw [hp] at h
      simp only at h
      cases hch : c.chreader with
      | nil => rw [hch] at h; cases h
      | cons i rest =>
        have hlen := seg_len_le c hcov.2 i
        rw [hch] at h
        simp only at h
        split_ifs at h with h1 h2 h3
        · cases h
        · apply h3
          simp only [ReadAt]
          omega
  · intro c1 h
    unfold Log.reader at h
    cases hp : c.prepared with
    | some j => rw [hp] at h; cases h
    | none =>
      rw [hp] at h
      simp only at h
      cases hch : c.chreader with
      | nil => rw [hch] at h; cases h
      | cons i rest =>
        have hlen := seg_len_le c hcov.2 i
        rw [hch] at h
        simp only at h
        split_ifs at h with h1 h2 h3
        · have hc := (Outcome.ok.inj h).symm
          subst hc
          refine ⟨hcov.1, set_len_le c hcov.2 i _ ?_⟩
          simp only [ReadAt, copy_length]
          exact hlen
        · have hc := (Outcome.ok.inj h).symm
          subst hc
          exact ⟨hcov.1, set_len_le c hcov.2 i _ hlen⟩

/-- The send of the reader fails no check. -/
theorem readerSend_no_fault (c : Log) (f : Fault) : c.readerSend ≠ .fault f := by
  intro h
  unfold Log.readerSend at h
  cases hp : c.prepared with
  | none => rw [hp] at h; cases h
  | some i =>
    rw [hp] at h
    simp only at h
    split_ifs at h

/-- With the whole log in the file no step of the dispatcher, the writer or
the reader fails the check of the segment pre-read, and the file keeps
holding the whole log. -/
theorem step_covered {n : Nat} {c : Log} (a : Action)
    (ha : a = .dispatch ∨ a = .writer ∨ a = .reader ∨ a = .readerSend)
    (hinv : Inv n c) (hcov : Covered c) :
    step c a ≠ .fault .checkSegmentRead ∧ ∀ c1, step c a = .ok c1 → Covered c1 := by
  rcases ha with rfl | rfl | rfl | rfl
  · constructor
    · intro h
      have h1 : c.dispatch = .fault .checkSegmentRead := h
      unfold Log.dispatch at h1
      cases hpc : c.pc with
      | idle => rw [hpc] at h1; cases h1
      | inPut msg =>
        rw [hpc] at h1
        simp only [Log.put, Log.putWrite] at h1
        split_ifs at h1
        cases h1
      | inSync msg =>
        rw [hpc] at h1
        simp only [Log.sync, hpc] at h1
        cases hav : c.chavailable with
        | nil => rw [hav] at h1; cases h1
        | cons i rest => rw [hav] at h1; cases h1
    · intro c1 h
      obtain ⟨msg, _, _, rfl⟩ | ⟨msg, buf, bc1, _, _, hb, rfl⟩ | ⟨msg, i, rest, _, _, rfl⟩ :=
        dispatch_ok c c1 h
      · exact hcov
      · refine ⟨hcov.1, set_len_le c hcov.2 _ _ ?_⟩
        show buf.length ≤ c.segmentsize
        rw [hb]
        exact seg_len_le c hcov.2 _
      · exact hcov
  · constructor
    · intro h
      have h1 : c.writer = .fault .checkSegmentRead := h
      unfold Log.writer at h1
      cases hch : c.chwriting with
      | nil => rw [hch] at h1; cases h1
      | cons i rest =>
        rw [hch] at h1
        simp only at h1
        split_ifs at h1
    · intro c1 h
      obtain ⟨i, rest, fp1, w, _, hfp, rfl⟩ := writer_ok c c1 h
      exact ⟨le_trans hcov.1 hfp, set_len_le c hcov.2 _ _ (seg_len_le c hcov.2 _)⟩
  · exact reader_covered hinv hcov
  · refine ⟨readerSend_no_fault c _, ?_⟩
    intro c1 h
    obtain ⟨i, _, _, rfl⟩ := readerSend_ok c c1 h
    exact hcov

/-- With the whole log in the file the reads of the reader succeed. -/
theorem covered_reads_succeed {n : Nat} {c : Log} (hinv : Inv n c) (hcov : Covered c) :
    ReadsSucceed c := by
  intro sched
  induction sched generalizing n c with
  | nil => intro _ h; cases h
  | cons a rest ih =>
    intro hs h
    have ha := hs a (List.mem_cons_self _ _)
    obtain ⟨hnf, hok⟩ := step_covered a ha hinv hcov
    rw [run_cons] at h
    cases hst : step c a with
    | ok c1 =>
      rw [hst] at h
      exact ih (step_inv a hinv hst) (hok c1 hst)
        (fun x hx => hs x (List.mem_cons_of_mem _ hx)) h
    | fault f =>
      rw [hst] at h
      have hf : f = .checkSegmentRead := Outcome.fault.inj h
      rw [hf] at hst
      exact hnf hst
    | blocked => rw [hst] at h; cases h


/-! ## A log whose size overflows -/

/-- In a stuck log every segment buffer has offset 0 and at most 6 bytes. -/
theorem stuck_seg {c : Log} (h : Stuck c) (i : Nat) :
    (c.seg i).offset = 0 ∧ (c.seg i).segmentbuf.length ≤ 6 := by
  unfold Log.seg
  rw [List.getD_eq_getElem?_getD]
  cases hs : c.segments[i]? with
  | none => exact ⟨rfl, Nat.zero_le _⟩
  | some s => exact h.2.2.2.2.2 s (List.getElem?_mem hs)

/-- Replacing a buffer of a stuck log by one of offset 0 and at most 6
bytes. -/
theorem stuck_set {c : Log} (h : Stuck c) (i : Nat) (s1 : IoSegment)
    (h1 : s1.offset = 0 ∧ s1.segmentbuf.length ≤ 6) :
    ∀ s ∈ c.segments.set i s1, s.offset = 0 ∧ s.segmentbuf.length ≤ 6 := by
  intro s hs
  rcases List.mem_or_eq_of_mem_set hs with hm | hm
  · exact h.2.2.2.2.2 s hm
  · rw [hm]; exact h1

/-- The reader of a stuck log: its pre-read is not short, and the log stays
stuck. -/
theorem reader_stuck {c : Log} (hst : Stuck c) :
    c.reader ≠ .fault .checkSegmentRead ∧ ∀ c1, c.reader = .ok c1 → Stuck c1 := by
  obtain ⟨hsize, hss, hbs, hcur, hfp, hsegs⟩ := hst
  have hnew : ((c.current + c.segmentsize) % U64) % c.size = 0 := by
    rw [hcur, hss, hsize]
    decide
  constructor
  · intro h
    unfold Log.reader at h
    cases hp : c.prepared with
    | some j => rw [hp] at h; cases h
    | none =>
      rw [hp] at h
      simp only at h
      cases hch : c.chreader with
      | nil => rw [hch] at h; cases h
      | cons i rest =>
        have hlen := (stuck_seg ⟨hsize, hss, hbs, hcur, hfp, hsegs⟩ i).2
        rw [hch] at h
        simp only at h
        split_ifs at h with h1 h2 h3
        · cases h
        · apply h3
          simp only [ReadAt]
          rw [hnew]
          omega
  · intro c1 h
    unfold Log.reader at h
    cases hp : c.prepared with
    | some j => rw [hp] at h; cases h
    | none =>
      rw [hp] at h
      simp only at h
      cases hch : c.chreader with
      | nil => rw [hch] at h; cases h
      | cons i rest =>
        have hlen := (stuck_seg ⟨hsize, hss, hbs, hcur, hfp, hsegs⟩ i).2
        rw [hch] at h
        simp only at h
        split_ifs at h with h1 h2 h3
        · have hc := (Outcome.ok.inj h).symm
          subst hc
          refine ⟨hsize, hss, hbs, hnew, hfp,
            stuck_set ⟨hsize, hss, hbs, hcur, hfp, hsegs⟩ i _ ⟨hnew, ?_⟩⟩
          simp only [ReadAt, copy_length]
          exact hlen
        · have hc := (Outcome.ok.inj h).symm
          subst hc
          exact ⟨hsize, hss, hbs, hnew, hfp,
            stuck_set ⟨hsize, hss, hbs, hcur, hfp, hsegs⟩ i _ ⟨hnew, hlen⟩⟩

/-- Every action keeps a stuck log stuck. -/
theorem step_stuck {c c1 : Log} (a : Action) (hst : Stuck c) (h : step c a = .ok c1) :
    Stuck c1 := by
  cases a with
  | msg m =>
    obtain ⟨_, ⟨_, rfl⟩ | ⟨bc1, d1, lr1, rfl⟩⟩ := server_ok c c1 m h
    · exact hst
    · exact hst
  | dispatch =>
    obtain ⟨msg, _, _, rfl⟩ | ⟨msg, buf, bc1, _, _, hb, rfl⟩ | ⟨msg, i, rest, _, _, rfl⟩ :=
      dispatch_ok c c1 h
    · exact hst
    · obtain ⟨hsize, hss, hbs, hcur, hfp, hsegs⟩ := hst
      have hs := stuck_seg ⟨hsize, hss, hbs, hcur, hfp, hsegs⟩ c.segment
      refine ⟨hsize, hss, hbs, hcur, hfp,
        stuck_set ⟨hsize, hss, hbs, hcur, hfp, hsegs⟩ _ _ ⟨hs.1, ?_⟩⟩
      show buf.length ≤ 6
      rw [hb]
      exact hs.2
    · exact hst
  | writer =>
    obtain ⟨i, rest, fp1, w, _, hfp1, rfl⟩ := writer_ok c c1 h
    obtain ⟨hsize, hss, hbs, hcur, hfp, hsegs⟩ := hst
    exact ⟨hsize, hss, hbs, hcur, le_trans hfp hfp1,
      stuck_set ⟨hsize, hss, hbs, hcur, hfp, hsegs⟩ _ _
        (stuck_seg ⟨hsize, hss, hbs, hcur, hfp, hsegs⟩ i)⟩
  | reader => exact (reader_stuck hst).2 c1 h
  | readerSend =>
    obtain ⟨i, _, _, rfl⟩ := readerSend_ok c c1 h
    exact hst
  | logread =>
    obtain ⟨m, rest, bc1, d1, _, rfl⟩ := logread_ok c c1 h
    exact hst

/-- A stuck log stays stuck along every execution. -/
theorem run_stuck {c c1 : Log} (acts : List Action) (hst : Stuck c)
    (h : run c acts = .ok c1) : Stuck c1 := by
  induction acts generalizing c with
  | nil =>
    have hc : c = c1 := Outcome.ok.inj h
    subst hc
    exact hst
  | cons a rest ih =>
    rw [run_cons] at h
    cases hs : step c a with
    | ok c2 =>
      rw [hs] at h
      exact ih (step_stuck a hst hs) h
    | fault f => rw [hs] at h; cases h
    | blocked => rw [hs] at h; cases h

/-- In a stuck log the reads of the reader succeed. -/
theorem stuck_reads_succeed {c : Log} (hst : Stuck c) : ReadsSucceed c := by
  intro sched
  induction sched generalizing c with
  | nil => intro _ h; cases h
  | cons a rest ih =>
    intro hs h
    rw [run_cons] at h
    cases hstep : step c a with
    | ok c1 =>
      rw [hstep] at h
      exact ih (step_stuck a hst hstep) (fun x hx => hs x (List.mem_cons_of_mem _ hx)) h
    | fault f =>
      rw [hstep] at h
      have hf : f = .checkSegmentRead := Outcome.fault.inj h
      rw [hf] at hstep
      rcases hs a (List.mem_cons_self _ _) with rfl | rfl | rfl | rfl
      · have h1 : c.dispatch = .fault .checkSegmentRead := hstep
        unfold Log.dispatch at h1
        cases hpc : c.pc with
        | idle => rw [hpc] at h1; cases h1
        | inPut msg =>
          rw [hpc] at h1
          simp only [Log.put, Log.putWrite] at h1
          split_ifs at h1
          cases h1
        | inSync msg =>
          rw [hpc] at h1
          simp only [Log.sync, hpc] at h1
          cases hav : c.chavailable with
          | nil => rw [hav] at h1; cases h1
          | cons i rest => rw [hav] at h1; cases h1
      · have h1 : c.writer = .fault .checkSegmentRead := hstep
        unfold Log.writer at h1
        cases hch : c.chwriting with
        | nil => rw [hch] at h1; cases h1
        | cons i rest =>
          rw [hch] at h1
          simp only at h1
          split_ifs at h1
      · exact (reader_stuck hst).1 hstep
      · exact readerSend_no_fault c _ hstep
    | blocked => rw [hstep] at h; cases h

/-- No segment buffer of a stuck log covers block 2. -/
theorem stuck_not_inRange {c : Log} (hst : Stuck c) (i : Nat) :
    c.inRange 2 (c.seg i) = false := by
  have ho := (stuck_seg hst i).1
  obtain ⟨_, hss, hbs, _, _, _⟩ := hst
  unfold Log.inRange Log.offset
  rw [ho, hss, hbs]
  decide

set_option maxRecDepth 100000 in
/-- C12, counterexample: 6148914691236517206 blocks of 3 bytes, two blocks
to the segment.  The size of the log, `3074457345618258603 · 6`, overflows
`uint64` to 2, which `NewLog` accepts, and every offset the reader assigns
is `(0 + 6) mod 2 = 0`.  After `PUT(0)`, `PUT(2)` stands at the loop of
`put`, the file holds a segment and every read of the reader succeeds, but
no execution reaches a state whose current segment covers block 2: the loop
does not terminate. -/
theorem put_loop_spins_on_overflow :
    NewLog true 6148914691236517206 3 2 4 = .ok (overflowFresh, 6148914691236517206)
      ∧ run overflowFresh toSpinning = .ok spinning
      ∧ spinning.pc = .inPut { kind := .MsgPut, BlockNum := 2, Buffer := [2, 2, 2] }
      ∧ 2 < spinning.blocks
      ∧ ReadsSucceed spinning
      ∧ ∀ sched c, run spinning sched = .ok c → c.inRange 2 (c.seg c.segment) = false := by
  have hst : Stuck spinning := by
    unfold Stuck
    decide
  refine ⟨by decide, by decide, rfl, by decide, stuck_reads_succeed hst, ?_⟩
  intro sched c h
  exact stuck_not_inRange (run_stuck sched hst h) c.segment

/-! ## The loop of `put` terminates -/

/-- C12, amended: in every state reached from the state `NewLog` constructs
for a log whose size in bytes `numsegments · segmentsize` does not overflow
`uint64`, with a put of block `k` standing at its loop and the reads of the
reader succeeding, the loop `for !inRange(k, segment) { sync() }`
terminates after fewer than `numsegments` syncs with a current segment that
covers `k`: `k` is below the effective number of blocks, the number `d` of
syncs to go is less than `numsegments` and zero exactly when the current
segment covers `k`, the dispatcher, the writer and the reader reach the exit
of the loop with `d` syncs, no execution without a new message is longer
than `workLeft`, and each sync, whatever the writer, the reader and the
`logread` workers do in between, moves the offset of the current segment
forward by exactly one segment modulo `N·B`. -/
theorem put_loop_terminates (fileok : Bool) (blocks blocksize bps bcsize : Nat)
    (l : Log) (b : Nat) (acts : List Action) (c : Log) (msg : Message)
    (h0 : NewLog fileok blocks blocksize bps bcsize = .ok (l, b))
    (hsize : l.numsegments * l.segmentsize < U64)
    (hrun : run l acts = .ok c)
    (hpc : c.pc = .inPut msg)
    (hreads : ReadsSucceed c) :
    PutLoopTerminates c msg := by
  have hinv := run_inv acts (NewLog_inv fileok blocks blocksize bps bcsize l b h0 hsize) hrun
  have hcfg := run_cfg acts (NewLog_cfg fileok blocks blocksize bps bcsize l b h0 hsize) hrun
  have hk := hcfg.require msg (Or.inl hpc)
  obtain ⟨hlt, hexit, _⟩ := loop_facts hinv hcfg msg.BlockNum hk
  refine ⟨hk, hlt, hexit, ?_, ?_, ?_⟩
  · obtain ⟨sched, c2, hs, hrun2, hpc2, hr2⟩ :=
      loop_exits msg c.workLeft _ c hinv hcfg hreads le_rfl (Or.inl hpc)
    refine ⟨sched, c2, hs, hrun2, hpc2, hr2, ?_⟩
    have hnomsg : ∀ a ∈ sched, ∀ m, a ≠ .msg m := by
      intro a ha m hm
      rcases hs a ha with h | h | h | h <;> rw [h] at hm <;> cases hm
    obtain ⟨_, hcount⟩ := run_work sched hinv hcfg hnomsg hrun2
    have hinv2 := run_inv sched hinv hrun2
    have hcfg2 := run_cfg sched hcfg hrun2
    obtain ⟨_, hexit2, _⟩ :=
      loop_facts hinv2 hcfg2 msg.BlockNum (hcfg2.require msg (Or.inl hpc2))
    have hd2 : c2.dispatchLeft = 1 := by
      unfold Log.dispatchLeft
      rw [hpc2]
      simp only
      rw [hexit2.mp hr2]
    have hd : c.dispatchLeft
        = 2 * c.syncsTo msg.BlockNum (c.seg c.segment).offset + 1 := by
      unfold Log.dispatchLeft
      rw [hpc]
    omega
  · intro sched c2 hs hrun2
    obtain ⟨hw, _⟩ := run_work sched hinv hcfg hs hrun2
    omega
  · intro others c2 ho hne hrun2
    exact sync_moves_one msg others hinv hcfg hpc hne ho hrun2

set_option maxRecDepth 100000 in
/-- Witness of C12 amended: two one-block segments, both written to the
file; `PUT(1, [7])` stands at the loop of `put` with the current segment at
offset 0, one sync from the segment of block 1. -/
theorem put_loop_terminates_witness :
    NewLog true 2 1 1 4 = .ok (fresh2, 2)
      ∧ fresh2.numsegments * fresh2.segmentsize < U64
      ∧ run fresh2 toLooping2 = .ok looping2
      ∧ looping2.pc = .inPut { kind := .MsgPut, BlockNum := 1, Buffer := [7] }
      ∧ ReadsSucceed looping2
      ∧ looping2.syncsTo 1 (looping2.seg looping2.segment).offset = 1
      ∧ PutLoopTerminates looping2 { kind := .MsgPut, BlockNum := 1, Buffer := [7] } :=
  have hreads : ReadsSucceed looping2 :=
    covered_reads_succeed
      (run_inv toLooping2 (NewLog_inv true 2 1 1 4 fresh2 2 (by decide) (by decide))
        (by decide))
      (by unfold Covered; decide)
  ⟨by decide, by decide, by decide, rfl, hreads, by decide,
    put_loop_terminates true 2 1 1 4 fresh2 2 toLooping2 looping2
      { kind := .MsgPut, BlockNum := 1, Buffer := [7] }
      (by decide) (by decide) (by decide) rfl hreads⟩


end Pblcache
